import Mathlib

/-!
Verification of the cache-completeness and range-fetch subsystem of the
limitless-cli repository (`src/limitless_cli/cache/...`).

Calendar days are represented by their proleptic-Gregorian day number
(an integer, epoch 1970-01-01 = 0).  `datetime.date` arithmetic
(`timedelta`, comparisons) becomes plain integer arithmetic;
`date.isoformat()` and `datetime.strptime(s, "%Y-%m-%d")` are embedded
by `day_key` and `parse10` below via the standard civil-calendar
conversion.  Cached state is the in-memory backend
(`cache/backends/memory.py`): a keyed collection of `CacheEntry`
values, embedded as a list keyed by `data_date`.  The remote source is
the abstract paginated query capability consumed by the streamers
(`client.paginated` / `LimitlessAPI._paginate`): a day query or a
datetime-range query that either returns the full list of records
(pagination collapsed: the paginator concatenates all pages) or fails
(`ApiError` after exhausting retries), embedded as `Option`.
-/

namespace Limitless

/-- A lifelog record as the cache layer sees it: an opaque payload
(`id`) plus the optional string fields that the partitioning and
transport code actually inspects (`lg.get("date")`,
`lg.get("created_at")`, `lg.get("timestamp")`, `lg.get("startTime")`).
`none` models an absent key. -/
structure Record where
  id : Nat
  date : Option String := none
  created_at : Option String := none
  timestamp : Option String := none
  startTime : Option String := none
deriving DecidableEq, Repr

/-- One day's cached state (`cache/backends/base.py`, `CacheEntry`). -/
structure CacheEntry where
  logs : List Record
  data_date : Int
  fetched_on_date : Int
  confirmed_complete_up_to_date : Option Int := none
deriving DecidableEq, Repr

/-- The in-memory cache backend's store (`cache/backends/memory.py`):
a dict keyed by `data_date`, embedded as a list of entries.  Dict
semantics (unique keys) is the well-formedness predicate `StoreWF`. -/
abbrev Store := List CacheEntry

/-- Keys of the store are pairwise distinct (Python dict semantics). -/
def StoreWF (s : Store) : Prop := (s.map CacheEntry.data_date).Nodup

instance (s : Store) : Decidable (StoreWF s) := by
  unfold StoreWF; infer_instance

/-- Backend `read(day)`: the entry stored under key `day`, if any
(`List.find?` unrolled for structural reasoning). -/
def read_entry : Store → Int → Option CacheEntry
  | [], _ => none
  | e :: rest, day => if e.data_date == day then some e else read_entry rest day

/-- Backend `write(entry)`: dict assignment `store[entry.data_date] = entry`. -/
def write_entry (s : Store) (e : CacheEntry) : Store :=
  if s.any (fun x => x.data_date == e.data_date) then
    s.map (fun x => if x.data_date == e.data_date then e else x)
  else
    s ++ [e]

/-- The inclusive day range `[a, b]`, ascending — embeds
`(start + timedelta(days=i) for i in range((end - start).days + 1))`. -/
def int_range (a b : Int) : List Int :=
  (List.range (b - a + 1).toNat).map (fun (i : Nat) => a + (i : Int))

/-- Python `max(l)` on a nonempty list of dates; `dflt` is returned on
the empty list, on which the Python original would raise (callers
guard nonemptiness). -/
def list_max : List Int → Int → Int
  | [], dflt => dflt
  | x :: xs, _ => xs.foldl (fun a b => if b > a then b else a) x

/- ------------------------------------------------------------------
Calendar / ISO-string embedding (`date.isoformat`, `strptime "%Y-%m-%d"`).
------------------------------------------------------------------ -/

/-- Civil date (year, month, day) of a day number (Hinnant's
`civil_from_days`, with floor division as in Python). -/
def civil_from_days (z0 : Int) : Int × Int × Int :=
  let z := z0 + 719468
  let era := z.fdiv 146097
  let doe := z - era * 146097
  let yoe := (doe - doe.fdiv 1460 + doe.fdiv 36524 - doe.fdiv 146096).fdiv 365
  let y := yoe + era * 400
  let doy := doe - (365 * yoe + yoe.fdiv 4 - yoe.fdiv 100)
  let mp := (5 * doy + 2).fdiv 153
  let d := doy - (153 * mp + 2).fdiv 5 + 1
  let m := mp + (if mp < 10 then 3 else -9)
  (y + (if m ≤ 2 then 1 else 0), m, d)

/-- Day number of a civil date (Hinnant's `days_from_civil`). -/
def days_from_civil (y m d : Int) : Int :=
  let y' := if m ≤ 2 then y - 1 else y
  let era := y'.fdiv 400
  let yoe := y' - era * 400
  let mp := (m + 9).fmod 12
  let doy := (153 * mp + 2).fdiv 5 + d - 1
  let doe := yoe * 365 + yoe.fdiv 4 - yoe.fdiv 100 + doy
  era * 146097 + doe - 719468

def is_leap_year (y : Int) : Bool :=
  y % 4 == 0 && (y % 100 != 0 || y % 400 == 0)

def days_in_month (y m : Int) : Int :=
  if m == 2 then (if is_leap_year y then 29 else 28)
  else if m == 4 || m == 6 || m == 9 || m == 11 then 30
  else 31

/-- Left-pad a decimal rendering with zeros (`%04d` / `%02d`). -/
def pad_num (w : Nat) (n : Nat) : String :=
  let s := toString n
  String.mk (List.replicate (w - s.length) '0' ++ s.data)

/-- Embeds `date.isoformat()`: the `YYYY-MM-DD` string of a day number. -/
def day_key (z : Int) : String :=
  match civil_from_days z with
  | (y, m, d) => pad_num 4 y.toNat ++ "-" ++ pad_num 2 m.toNat ++ "-" ++ pad_num 2 d.toNat

def parse_digits (s : String) : Nat :=
  s.data.foldl (fun a c => a * 10 + (c.toNat - 48)) 0

def digits_field (lo hi : Nat) (s : String) : Bool :=
  decide (lo ≤ s.length) && decide (s.length ≤ hi) && s.data.all Char.isDigit

/-- Splitting on the literal `"-"` (the `%Y-%m-%d` separators), written
by structural recursion over the character list so that concrete
instances evaluate by kernel reduction; agrees with
`String.splitOn "-"`. -/
def split_dash_go : List Char → List Char → List (List Char)
  | [], acc => [acc.reverse]
  | c :: rest, acc =>
    if c = '-' then acc.reverse :: split_dash_go rest []
    else split_dash_go rest (c :: acc)

def split_dash (s : String) : List String :=
  (split_dash_go s.data []).map String.mk

/-- Python `s[:10]`: the first 10 characters, taken on the character
list (evaluates by kernel reduction; agrees with `String.take s 10`). -/
def take10 (s : String) : String :=
  String.mk (s.data.take 10)

/-- The `%d` directive of `strptime` (CPython `_strptime.TimeRE`,
pattern `3[01]|[12]\d|0[1-9]|[1-9]| [1-9]`): one or two digits, or a
space followed by a nonzero digit; the textual range of the two-digit
alternatives is subsumed by the calendar bound checked in `parse10`
below, exactly as the `datetime` constructor re-checks the regex
match. -/
def day_field (s : String) : Option Nat :=
  if digits_field 1 2 s then some (parse_digits s)
  else
    match s.data with
    | [c1, c2] =>
      if c1 = ' ' ∧ c2.isDigit ∧ c2 ≠ '0' then some (c2.toNat - 48) else none
    | _ => none

/-- Embeds `datetime.strptime(s, "%Y-%m-%d").date()` as used by the bulk
partitioner: `%Y` matches exactly four digits (`\d\d\d\d`), `%m` one
or two digits, `%d` one or two digits or a space followed by a nonzero
digit, the two separators are literal, the whole string must be
consumed, and the resulting triple must be a valid `datetime.date`
(year ≥ 1, month 1-12, day within the month; the regex's textual field
ranges are subsumed by these calendar bounds).  Digit characters here
are the ASCII `0-9` — CPython's `\d` also admits non-ASCII decimal
digits, which lie outside the alphabet this embedding covers.  Returns
the day number, or `none` where the original raises `ValueError`. -/
def parse10 (s : String) : Option Int :=
  match split_dash s with
  | [ys, ms, ds] =>
    match day_field ds with
    | none => none
    | some d0 =>
      if digits_field 4 4 ys && digits_field 1 2 ms then
        let y : Int := parse_digits ys
        let m : Int := parse_digits ms
        let d : Int := (d0 : Int)
        if 1 ≤ y ∧ y ≤ 9999 ∧ 1 ≤ m ∧ m ≤ 12 ∧ 1 ≤ d ∧ d ≤ days_in_month y m then
          some (days_from_civil y m d)
        else none
      else none
  | _ => none

/-- Python string `<` (lexicographic by code point). -/
def str_lt_chars : List Char → List Char → Bool
  | [], [] => false
  | [], _ :: _ => true
  | _ :: _, [] => false
  | a :: as, b :: bs =>
    if a.toNat < b.toNat then true
    else if b.toNat < a.toNat then false
    else str_lt_chars as bs

/-- Python string `<=` on a total order: `a <= b` iff `not (b < a)`. -/
def str_le (a b : String) : Bool := !(str_lt_chars b.data a.data)

/- ------------------------------------------------------------------
The remote source: the abstract paginated query capability.
------------------------------------------------------------------ -/

/-- A remote request, as recorded for observation (mirrors the
transport's `request_log`): a single-day query (with its result cap,
`max_results`) or a datetime-range query. -/
inductive Query where
  | dayQ (d : Int) (cap : Option Nat)
  | rangeQ (s e : Int)
deriving DecidableEq, Repr

/-- The paginated remote query capability consumed by the cache layer
(`client.paginated` / `_iter_api_lifelogs`), with cursor pagination
collapsed: a query yields the full concatenation of its pages, or
`none` when the transport fails after exhausting retries
(`ApiError`). -/
structure Remote where
  dayQuery : Int → Option (List Record)
  rangeQuery : Int → Int → Option (List Record)

/-- Mutable state threaded through a run: the cache backend's store,
`CacheManager._fetched_this_session`, and the log of remote requests
issued so far. -/
structure SysState where
  store : Store
  fetched_this_session : List Int
  requests : List Query
deriving DecidableEq, Repr

/-- Python `set.add` on the session set. -/
def add_fetched (l : List Int) (d : Int) : List Int :=
  if d ∈ l then l else l ++ [d]

/- ------------------------------------------------------------------
CompletenessTracker scans (`_scan_cache_directory` consumers).
------------------------------------------------------------------ -/

/-- Embeds `_get_max_known_non_empty_data_date(current_date,
execution_date)` (`cache/manager.py`, also `streaming/daily.py` and
`streaming/bulk.py`): the most recent cached date after `current`
(bounded by `execution_date`, the scan's bound) that has non-empty
logs. -/
def get_max_known_non_empty_data_date (s : Store) (current execution_date : Int) :
    Option Int :=
  s.foldl
    (fun acc e =>
      if e.data_date ≤ execution_date ∧ current < e.data_date ∧ e.logs ≠ [] then
        match acc with
        | none => some e.data_date
        | some m => if e.data_date > m then some e.data_date else acc
      else acc)
    none

/-- Embeds `_get_global_latest_non_empty_date(execution_date)`: the
latest cached date (bounded by `execution_date`) with non-empty logs. -/
def get_global_latest_non_empty_date (s : Store) (execution_date : Int) : Option Int :=
  s.foldl
    (fun acc e =>
      if e.data_date ≤ execution_date ∧ e.logs ≠ [] then
        match acc with
        | none => some e.data_date
        | some m => if e.data_date > m then some e.data_date else acc
      else acc)
    none

/-- Embeds `_save_logs(day, logs, fetched_on_date, execution_date)` of
the streaming strategies (and, identically, the manager's
`_write_cache_file`): stamp `confirmed_complete_up_to_date` from a
scan of the current store, then write the entry. -/
def save_logs (s : Store) (day : Int) (logs : List Record)
    (fetched_on_date execution_date : Int) : Store :=
  let confirmed := get_max_known_non_empty_data_date s day execution_date
  write_entry s ⟨logs, day, fetched_on_date, confirmed⟩

/- ------------------------------------------------------------------
Per-day fetch (`DailyStreamer._fetch_day`, `CacheManager.fetch_day`).
------------------------------------------------------------------ -/

/-- The `needs_fetch` decision of `DailyStreamer._fetch_day` /
`CacheManager.fetch_day`: `True` except when the cached entry may be
served (cache-only mode with an entry present, or a past-day entry
whose `confirmed_complete_up_to_date` is strictly beyond its
`data_date`); a day equal to the execution date always refetches. -/
def fetch_day_needs_api (s : Store) (execution_date day : Int) (force_cache : Bool) :
    Bool :=
  match read_entry s day with
  | some entry =>
    if force_cache then false
    else if day == execution_date then true
    else
      match entry.confirmed_complete_up_to_date with
      | some c => decide (¬ c > entry.data_date)
      | none => true
  | none => !force_cache

/-- Embeds `DailyStreamer._fetch_day` (equivalently
`CacheManager.fetch_day`): returns `(logs, max_date_in_logs)` and the
updated state.  Future days (unless cache-only) return empty without
querying; otherwise the cache is consulted, and on a fetch the remote
day query is issued, its result written back (`_save_logs`) and the
day marked fetched — except on `ApiError`, which returns empty and
writes nothing. -/
def fetch_day (remote : Remote) (st : SysState) (execution_date day : Int)
    (force_cache : Bool) : (List Record × Option Int) × SysState :=
  if day > execution_date ∧ ¬ force_cache then (([], none), st)
  else if fetch_day_needs_api st.store execution_date day force_cache then
    let st1 : SysState := { st with requests := st.requests ++ [Query.dayQ day none] }
    match remote.dayQuery day with
    | some fetched_logs =>
      ((fetched_logs, if fetched_logs ≠ [] then some day else none),
        { st1 with
          store := save_logs st1.store day fetched_logs execution_date execution_date,
          fetched_this_session := add_fetched st1.fetched_this_session day })
    | none => (([], none), st1)
  else
    match read_entry st.store day with
    | some entry =>
      ((entry.logs, if entry.logs ≠ [] then some day else none), st)
    | none => (([], none), st)

/- ------------------------------------------------------------------
Smart probe (`DailyStreamer._should_probe_for_completeness`,
`_perform_completeness_probe`, `CacheManager._perform_latest_data_probe`).
------------------------------------------------------------------ -/

/-- Embeds `DailyStreamer._should_probe_for_completeness(days,
execution_date)`.  Under `StoreWF` the backend scan restricted to a
past day agrees with `read_entry`, which is used here for the
scan-dictionary lookups. -/
def should_probe_for_completeness (s : Store) (days : List Int) (execution_date : Int) :
    Bool :=
  if !days.any (fun d => d < execution_date) then false
  else
    let max_date_in_range := list_max days 0
    if days.any (fun d =>
        match read_entry s d with
        | some e =>
          match e.confirmed_complete_up_to_date with
          | some c => decide (c > max_date_in_range)
          | none => false
        | none => false) then false
    else if s.any (fun e =>
        e.data_date ≤ execution_date && e.data_date > max_date_in_range
          && !e.logs.isEmpty) then false
    else
      days.any (fun d =>
        if d ≥ execution_date then false
        else
          match read_entry s d with
          | none => true
          | some e =>
            e.logs.isEmpty ||
              (match e.confirmed_complete_up_to_date with
               | none => true
               | some c => decide (c < d)))

/-- Embeds `DailyStreamer._perform_completeness_probe`: a 1-capped day
query against `max(days) + 1` (clamped to the execution date); a
non-empty result is written back via `_save_logs`, an empty result or
transport failure leaves the cache untouched. -/
def perform_completeness_probe (remote : Remote) (st : SysState) (days : List Int)
    (execution_date : Int) : SysState :=
  let probe_date0 := list_max days 0 + 1
  let probe_date := if probe_date0 > execution_date then execution_date else probe_date0
  let st1 : SysState :=
    { st with requests := st.requests ++ [Query.dayQ probe_date (some 1)] }
  match remote.dayQuery probe_date with
  | some ls =>
    let probe_logs := ls.take 1
    if probe_logs ≠ [] then
      { st1 with
        store := save_logs st1.store probe_date probe_logs execution_date execution_date }
    else st1
  | none => st1

/-- Embeds `CacheManager._perform_latest_data_probe(probe_day, ...)`:
same probe, but for a caller-supplied day, returning whether non-empty
data was found and cached. -/
def perform_latest_data_probe (remote : Remote) (st : SysState)
    (probe_day execution_date : Int) : Bool × SysState :=
  let st1 : SysState :=
    { st with requests := st.requests ++ [Query.dayQ probe_day (some 1)] }
  match remote.dayQuery probe_day with
  | some ls =>
    let probe_logs := ls.take 1
    if probe_logs ≠ [] then
      (true,
        { st1 with
          store := save_logs st1.store probe_day probe_logs execution_date execution_date })
    else (false, st1)
  | none => (false, st1)

/- ------------------------------------------------------------------
Post-run confirmation upgrade (`_post_run_upgrade_confirmations`).
------------------------------------------------------------------ -/

/-- One iteration of the `_post_run_upgrade_confirmations` loop: skip
days at or beyond `effective_max`; otherwise re-read the day's entry
and, when its stamp is absent or older than `effective_max`, rewrite
it with the same logs (stamp recomputed by the write path). -/
def upgrade_step (execution_date effective_max : Int) (s : Store) (d : Int) : Store :=
  if d = effective_max ∨ d > effective_max then s
  else
    match read_entry s d with
    | none => s
    | some e =>
      match e.confirmed_complete_up_to_date with
      | none => save_logs s d e.logs e.fetched_on_date execution_date
      | some c =>
        if c < effective_max then save_logs s d e.logs e.fetched_on_date execution_date
        else s

/-- Embeds `CacheManager._post_run_upgrade_confirmations(final_max_date,
execution_date)`: for each day fetched this session strictly before
`effective_max` whose stamp is absent or older than `effective_max`,
rewrite its entry (same logs, stamp recomputed by the write path). -/
def post_run_upgrade_confirmations (st : SysState) (final_max_date execution_date : Int) :
    SysState :=
  let global_latest := get_global_latest_non_empty_date st.store execution_date
  let effective_max :=
    match global_latest with
    | some g => if g > final_max_date then g else final_max_date
    | none => final_max_date
  { st with
    store :=
      st.fetched_this_session.foldl (upgrade_step execution_date effective_max) st.store }

/- ------------------------------------------------------------------
Daily streaming strategy (`DailyStreamer.stream_range`).
------------------------------------------------------------------ -/

/-- Python `sorted(keys, reverse=(direction == "desc"))`. -/
def sort_int (descending : Bool) (l : List Int) : List Int :=
  if descending then l.insertionSort (fun a b => b ≤ a)
  else l.insertionSort (fun a b => a ≤ b)

/-- Lookup in the `logs_by_day` association (dict keyed by day;
`dict.get(d, [])`). -/
def lookup_day : List (Int × List Record) → Int → List Record
  | [], _ => []
  | p :: rest, d => if p.1 == d then p.2 else lookup_day rest d

/-- Python `max((d for d, l in logs_by_day.items() if l), default=None)`. -/
def latest_non_empty_day (m : List (Int × List Record)) : Option Int :=
  m.foldl
    (fun acc p =>
      if p.2 ≠ [] then
        match acc with
        | none => some p.1
        | some x => if p.1 > x then some p.1 else acc
      else acc)
    none

/-- Caller-facing result cap (`max_results`). -/
def take_cap (cap : Option Nat) (l : List Record) : List Record :=
  match cap with
  | some k => l.take k
  | none => l

/-- The probe decision taken once per `DailyStreamer.stream_range`
call: `Some p` when the probe fires against day `p`, `none` when no
probe is issued (cache-only mode, or `_should_probe_for_completeness`
declines). -/
def daily_probe_plan (s : Store) (start eend execution_date : Int) (force_cache : Bool) :
    Option Int :=
  if force_cache then none
  else
    let days := (int_range start eend).filter (fun d => d ≤ execution_date)
    let days_rev := days.reverse
    if should_probe_for_completeness s days_rev execution_date then
      let probe_date0 := list_max days_rev 0 + 1
      some (if probe_date0 > execution_date then execution_date else probe_date0)
    else none

/-- Embeds `DailyStreamer.stream_range`: probe decision, per-day
fetches in reverse chronological order, post-run confirmation
upgrade, then emission in the requested direction under the result
cap.  (`days` is ascending by construction, so `sorted(days,
reverse=True)` is its reverse.) -/
def daily_stream_range (remote : Remote) (st : SysState)
    (execution_date start eend : Int) (descending : Bool)
    (max_results : Option Nat) (force_cache : Bool) : List Record × SysState :=
  let days := (int_range start eend).filter (fun d => d ≤ execution_date || force_cache)
  let days_rev := days.reverse
  let st1 :=
    if !force_cache && should_probe_for_completeness st.store days_rev execution_date then
      perform_completeness_probe remote st days_rev execution_date
    else st
  let step := fun (acc : List (Int × List Record) × SysState) (day : Int) =>
    if day > execution_date && !force_cache then acc
    else
      let r := fetch_day remote acc.2 execution_date day force_cache
      (acc.1 ++ [(day, r.1.1)], r.2)
  let fetched := days_rev.foldl step ([], st1)
  let m := fetched.1
  let st2 := fetched.2
  let st3 :=
    match latest_non_empty_day m with
    | some dmax => post_run_upgrade_confirmations st2 dmax execution_date
    | none => st2
  let order := sort_int descending (m.map Prod.fst)
  (take_cap max_results ((order.map (fun d => lookup_day m d)).flatten), st3)

/- ------------------------------------------------------------------
Bulk streaming strategy (`BulkStreamer.stream_range`).
------------------------------------------------------------------ -/

/-- Python `a or b` over optional strings: an absent key and the empty
string are both falsy. -/
def or_field (a b : Option String) : Option String :=
  match a with
  | some s => if s = "" then b else some s
  | none => b

/-- The bulk partitioner's date extraction:
`lg.get("date") or lg.get("created_at") or lg.get("timestamp")`. -/
def bulk_date_str (r : Record) : Option String :=
  or_field r.date (or_field r.created_at (or_field r.timestamp none))

/-- `defaultdict(list)` bucket append in key-insertion order. -/
def append_day (m : List (Int × List Record)) (d : Int) (r : Record) :
    List (Int × List Record) :=
  if m.any (fun p => p.1 == d) then
    m.map (fun p => if p.1 == d then (p.1, p.2 ++ [r]) else p)
  else m ++ [(d, [r])]

/-- The record-partitioning loop of `BulkStreamer.stream_range`: group
records into per-day buckets by the first 10 characters of the
extracted date string, dropping records whose date is missing,
unparseable, or outside `[start, effective_end]`; stop once `fetched`
reaches the cap. -/
def bulk_collect (cap : Option Nat) (start eff : Int) :
    List Record → Nat → List (Int × List Record) → List (Int × List Record)
  | [], _, m => m
  | r :: rest, fetched, m =>
    match bulk_date_str r with
    | none => bulk_collect cap start eff rest fetched m
    | some dstr =>
      match parse10 (take10 dstr) with
      | none => bulk_collect cap start eff rest fetched m
      | some d =>
        if d < start ∨ d > eff then bulk_collect cap start eff rest fetched m
        else
          let m' := append_day m d r
          match cap with
          | some k => if fetched + 1 ≥ k then m' else bulk_collect cap start eff rest (fetched + 1) m'
          | none => bulk_collect cap start eff rest (fetched + 1) m'

/-- One iteration of the per-day cache-write loop of
`BulkStreamer.stream_range` / `_cache_results_by_day`: write the day's
bucket (empty included) unless the day is beyond the execution date,
and mark it fetched this session. -/
def bulk_write_step (m : List (Int × List Record)) (execution_date : Int)
    (acc : SysState) (d : Int) : SysState :=
  if d > execution_date then acc
  else
    { acc with
      store := save_logs acc.store d (lookup_day m d) execution_date execution_date,
      fetched_this_session := add_fetched acc.fetched_this_session d }

/-- The per-day cache-write loop of `BulkStreamer.stream_range` /
`_cache_results_by_day`: write an entry for every day of the range. -/
def bulk_cache_writes (st : SysState) (m : List (Int × List Record))
    (start eff execution_date : Int) : SysState :=
  (int_range start eff).foldl (bulk_write_step m execution_date) st

/-- Embeds `BulkStreamer.stream_range`: one range query for
`start ... min(end, execution_date)`, partitioning, per-day cache
writes, post-run confirmation upgrade, ordered emission.  `none`
models the `ApiError` a failing range query raises out of the
generator.  The paginator's own cap is the `take` on the returned
records; the partition loop then re-applies the cap to the records it
keeps. -/
def bulk_stream_range (remote : Remote) (st : SysState)
    (execution_date start eend : Int) (descending : Bool)
    (max_results : Option Nat) : Option (List Record × SysState) :=
  if start > execution_date then some ([], st)
  else
    let eff := min eend execution_date
    let st1 : SysState := { st with requests := st.requests ++ [Query.rangeQ start eff] }
    match remote.rangeQuery start eff with
    | none => none
    | some records =>
      let paged := match max_results with | some k => records.take k | none => records
      let m := bulk_collect max_results start eff paged 0 []
      let st2 := bulk_cache_writes st1 m start eff execution_date
      let st3 :=
        match latest_non_empty_day m with
        | some dmax => post_run_upgrade_confirmations st2 dmax execution_date
        | none => st2
      let order := sort_int descending (m.map Prod.fst)
      some (take_cap max_results ((order.map (fun d => lookup_day m d)).flatten), st3)

/- ------------------------------------------------------------------
Hybrid streaming strategy (`HybridStreamer` + gap planner).
------------------------------------------------------------------ -/

inductive GapStrategy where
  | bulk
  | daily
deriving DecidableEq, Repr

/-- The per-day "needs remote refresh" test of `_plan_hybrid_fetch`:
today, uncached, or stamp absent / not strictly beyond the day. -/
def needs_remote (s : Store) (execution_date d : Int) : Bool :=
  if d == execution_date then true
  else
    match read_entry s d with
    | none => true
    | some e =>
      match e.confirmed_complete_up_to_date with
      | none => true
      | some c => decide (c ≤ d)

/-- The gap-grouping loop of `_plan_hybrid_fetch` (accumulator
`(gap_start, gap_end)` over the remaining needs-remote days). -/
def group_gaps_go (gs ge : Int) : List Int → List (Int × Int)
  | [] => [(gs, ge)]
  | d :: rest =>
    if d = ge + 1 then group_gaps_go gs d rest
    else (gs, ge) :: group_gaps_go d d rest

def group_gaps : List Int → List (Int × Int)
  | [] => []
  | x :: xs => group_gaps_go x x xs

/-- Embeds `HybridStreamer._plan_hybrid_fetch(start, end,
execution_date)`: mark needs-remote days, group consecutive days into
gaps, pick `bulk` when `gap_days >= HYBRID_BULK_MIN_DAYS` (3) or
`gap_days / total_days >= HYBRID_BULK_RATIO` (0.4).  The float ratio
test is embedded exactly as `5 * gap_days >= 2 * total_days` for a
positive total: with day counts below `datetime`'s year-9999 bound the
double-precision comparison and the rational comparison always agree
(the gap between 2/5 and any other fraction with such a denominator
exceeds the rounding error).  (`CacheManager._plan_hybrid_fetch` is
the same computation with the scan dictionary in place of per-day
reads.) -/
def plan_hybrid_fetch (s : Store) (start eend execution_date : Int) :
    List (Int × Int × GapStrategy) :=
  let needs_api :=
    ((int_range start eend).filter (fun d => d ≤ execution_date)).filter
      (needs_remote s execution_date)
  if needs_api = [] then []
  else
    let gaps := group_gaps needs_api
    let total_days := eend - start + 1
    gaps.map (fun g =>
      let gap_days := g.2 - g.1 + 1
      (g.1, g.2,
        if gap_days ≥ 3 ∨ (total_days > 0 ∧ 5 * gap_days ≥ 2 * total_days) then
          GapStrategy.bulk
        else GapStrategy.daily))

/-- The gap re-partitioner of `HybridStreamer._execute_hybrid_plan`
(bulk branch): extraction chain `date / created_at / timestamp /
startTime`, 10-character parse, keep only the gap's own days. -/
def hybrid_date_str (r : Record) : Option String :=
  or_field r.date (or_field r.created_at (or_field r.timestamp (or_field r.startTime none)))

def hybrid_partition (out : List Record) (gs ge : Int) : List (Int × List Record) :=
  out.foldl
    (fun m r =>
      match hybrid_date_str r with
      | none => m
      | some dstr =>
        match parse10 (take10 dstr) with
        | none => m
        | some d => if gs ≤ d ∧ d ≤ ge then append_day m d r else m)
    []

/-- Dict assignment `logs_by_day[d] = v` for the hybrid merge. -/
def assoc_set (m : List (Int × List Record)) (d : Int) (v : List Record) :
    List (Int × List Record) :=
  if m.any (fun p => p.1 == d) then
    m.map (fun p => if p.1 == d then (p.1, v) else p)
  else m ++ [(d, v)]

/-- Embeds `execute_gap` of `HybridStreamer._execute_hybrid_plan`: a
bulk gap streams `BulkStreamer.stream_range` over the gap and
re-partitions its output (an exception is caught, leaving the gap's
local results empty — failure is modeled atomically); a daily gap
fetches each day via `DailyStreamer._fetch_day`. -/
def execute_gap (remote : Remote) (st : SysState) (execution_date : Int)
    (descending : Bool) (gap : Int × Int × GapStrategy) :
    List (Int × List Record) × SysState :=
  match gap.2.2 with
  | GapStrategy.bulk =>
    match bulk_stream_range remote st execution_date gap.1 gap.2.1 descending none with
    | none => ([], st)
    | some (out, st') => (hybrid_partition out gap.1 gap.2.1, st')
  | GapStrategy.daily =>
    (int_range gap.1 gap.2.1).foldl
      (fun acc d =>
        let r := fetch_day remote acc.2 execution_date d false
        (acc.1 ++ [(d, r.1.1)], r.2))
      ([], st)

/-- Embeds `HybridStreamer.stream_range`: plan the gaps, execute them
(sequentially here; gaps cover disjoint day ranges), fill the
remaining days from cache, run the post-run confirmation upgrade, and
emit in the requested direction under the result cap. -/
def hybrid_stream_range (remote : Remote) (st : SysState)
    (execution_date start eend : Int) (descending : Bool)
    (max_results : Option Nat) : List Record × SysState :=
  if start > execution_date then ([], st)
  else
    let eff := min eend execution_date
    let plan := plan_hybrid_fetch st.store start eff execution_date
    let filled :=
      if plan = [] then
        ((int_range start eff).foldl
          (fun (m : List (Int × List Record)) d =>
            match read_entry st.store d with
            | some entry => m ++ [(d, entry.logs)]
            | none => m)
          [], st)
      else
        let ex :=
          plan.foldl
            (fun (acc : List (Int × List Record) × SysState) gap =>
              let r := execute_gap remote acc.2 execution_date descending gap
              (r.1.foldl (fun m p => assoc_set m p.1 p.2) acc.1, r.2))
            ([], st)
        let m2 :=
          (int_range start eff).foldl
            (fun m d =>
              if m.any (fun p => p.1 == d) then m
              else
                match read_entry ex.2.store d with
                | some entry => m ++ [(d, entry.logs)]
                | none => m)
            ex.1
        (m2, ex.2)
    let m := filled.1
    let st2 := filled.2
    let st3 :=
      match latest_non_empty_day m with
      | some dmax => post_run_upgrade_confirmations st2 dmax execution_date
      | none => st2
    let order := sort_int descending (m.map Prod.fst)
    (take_cap max_results ((order.map (fun d => lookup_day m d)).flatten), st3)

/- ------------------------------------------------------------------
The in-memory transport (`api/transports/memory.py`) composed with the
paginator, yielding a concrete `Remote` from seeded records.
------------------------------------------------------------------ -/

/-- The transport's record key:
`lg.get("date", lg.get("created_at", ""))[:10]`. -/
def transport_key (r : Record) : String :=
  take10 ((r.date).getD ((r.created_at).getD ""))

/-- The transport's sort key: `lg.get("date", lg.get("created_at", ""))`. -/
def transport_sort_key (r : Record) : String :=
  (r.date).getD ((r.created_at).getD "")

/-- Python `list.sort(key=..., reverse=direction == "desc")`. -/
def sort_by_key (descending : Bool) (l : List Record) : List Record :=
  if descending then
    l.insertionSort (fun a b => str_le (transport_sort_key b) (transport_sort_key a) = true)
  else
    l.insertionSort (fun a b => str_le (transport_sort_key a) (transport_sort_key b) = true)

/-- The transport's `date` filter + sort (pagination collapsed: the
paginator concatenates all pages of the sorted subset). -/
def transport_day_query (seeded : List Record) (descending : Bool) (date_str : String) :
    List Record :=
  sort_by_key descending (seeded.filter (fun r => transport_key r == date_str))

/-- The transport's `start`/`end` filter + sort (both bounds present,
as the bulk streamer always sends them). -/
def transport_range_query (seeded : List Record) (descending : Bool)
    (start_str end_str : String) : List Record :=
  sort_by_key descending
    (seeded.filter (fun r =>
      str_le (take10 start_str) (transport_key r)
        && str_le (transport_key r) (take10 end_str)))

/-- The `Remote` obtained by running the paginator against an
`InMemoryTransport` seeded with `seeded`: day queries pass
`day.isoformat()`, range queries pass `"<iso> 00:00:00"` /
`"<iso> 23:59:59"` bounds (of which the transport keeps the first 10
characters).  The in-memory transport never fails. -/
def mem_remote (seeded : List Record) (descending : Bool) : Remote where
  dayQuery := fun d => some (transport_day_query seeded descending (day_key d))
  rangeQuery := fun a b =>
    some (transport_range_query seeded descending
      (day_key a ++ " 00:00:00") (day_key b ++ " 23:59:59"))

def w_record : Record := { id := 42 }

def w_entry : CacheEntry := ⟨[w_record], 5, 6, some 7⟩

def w_remote : Remote := ⟨fun _ => none, fun _ _ => none⟩

def w_state : SysState := ⟨[w_entry], [], []⟩

def w_probe_remote : Remote :=
  ⟨fun d => if d = 9 then some [⟨1, none, none, none, none⟩, ⟨2, none, none, none, none⟩,
      ⟨3, none, none, none, none⟩] else some [], fun _ _ => none⟩

/- ==================================================================
Claim C3: probe trigger policy.
================================================================== -/

/-- The claim's notion of a trustworthy cached day:
`confirmed_complete_up_to_date` set and strictly greater than the day. -/
def spec_trustworthy (s : Store) (d : Int) : Bool :=
  match read_entry s d with
  | some e =>
    match e.confirmed_complete_up_to_date with
    | some c => decide (d < c)
    | none => false
  | none => false

/-- Modelled from the claim's wording (for comparison with the code):
with cache-only mode off, the four-condition trigger of claim C3 —
(b) no cached day strictly after the requested range has non-empty
logs, (c) the range contains a day strictly before the execution
date, (d) not every day of the range is trustworthy in the sense of
`spec_trustworthy`. -/
def spec_probe_trigger (s : Store) (start eend execution_date : Int) : Prop :=
  (∀ e ∈ s, eend < e.data_date → e.logs = [])
    ∧ (∃ d ∈ int_range start eend, d < execution_date)
    ∧ ¬ (∀ d ∈ int_range start eend, spec_trustworthy s d = true)

instance (s : Store) (start eend execution_date : Int) :
    Decidable (spec_probe_trigger s start eend execution_date) := by
  unfold spec_probe_trigger
  infer_instance

/-- The code's per-day deficiency test: a past day is uncached, or
cached with empty logs, or its stamp is absent or strictly below the
day. -/
def day_deficient (s : Store) (d : Int) : Prop :=
  read_entry s d = none
    ∨ ∃ e, read_entry s d = some e
        ∧ (e.logs = [] ∨ e.confirmed_complete_up_to_date = none
            ∨ ∃ c, e.confirmed_complete_up_to_date = some c ∧ c < d)

/- ==================================================================
Maximum-fold machinery for the scan-derived maxima.
================================================================== -/

/-- The shared shape of the scan folds (`_get_global_latest_non_empty_date`,
`_get_max_known_non_empty_data_date`): running maximum of `data_date`
over entries satisfying `P`. -/
def entry_opt_max_step (P : CacheEntry → Prop) [DecidablePred P]
    (acc : Option Int) (e : CacheEntry) : Option Int :=
  if P e then
    match acc with
    | none => some e.data_date
    | some m => if e.data_date > m then some e.data_date else acc
  else acc

/-- The data a scan sees of an entry: its day and logs. -/
def store_profile (s : Store) : List (Int × List Record) :=
  s.map (fun e => (e.data_date, e.logs))

def w5_store : Store := [⟨[w_record], 3, 3, none⟩, ⟨[w_record], 5, 5, none⟩]

def w5_state : SysState := ⟨w5_store, [3, 5], []⟩

def w6_store : Store := [⟨[w_record], 11, 11, some 13⟩, ⟨[w_record], 12, 12, some 13⟩]

/- ==================================================================
Claim C7: bulk caching completeness.
================================================================== -/

/-- The bucket a record lands in during the bulk partition loop:
extract `date or created_at or timestamp`, parse the first 10
characters as `YYYY-MM-DD`, keep only days inside
`[start, effective_end]`; `none` means the record is dropped. -/
def bulk_assign (start eff : Int) (r : Record) : Option Int :=
  match bulk_date_str r with
  | none => none
  | some dstr =>
    match parse10 (take10 dstr) with
    | none => none
    | some d => if d < start ∨ d > eff then none else some d

/- ==================================================================
C7 — bulk caching completeness.
================================================================== -/

/-- The bucket association built by the bulk partition loop, uncapped
(`max_results=None`), started from the empty `defaultdict`. -/
def bulk_m (start eff : Int) (records : List Record) : List (Int × List Record) :=
  bulk_collect none start eff records 0 []

/-- The session state after `BulkStreamer.stream_range`'s range query
and per-day cache writes, before the post-run upgrade pass. -/
def bulk_st2 (st : SysState) (execution_date start eend : Int)
    (records : List Record) : SysState :=
  let eff := min eend execution_date
  bulk_cache_writes
    { st with requests := st.requests ++ [Query.rangeQ start eff] }
    (bulk_m start eff records) start eff execution_date

/-- The final session state of a successful uncapped
`BulkStreamer.stream_range` run: cache writes followed by the
conditional post-run confirmation upgrade. -/
def bulk_final (st : SysState) (execution_date start eend : Int)
    (records : List Record) : SysState :=
  let eff := min eend execution_date
  match latest_non_empty_day (bulk_m start eff records) with
  | some dmax =>
    post_run_upgrade_confirmations (bulk_st2 st execution_date start eend records)
      dmax execution_date
  | none => bulk_st2 st execution_date start eend records

/-- Concrete remote for the C7 witness: one record with a parseable
embedded date (`1970-01-02`, day 1), one with no date-like field at
all, and one whose `created_at` does not parse as `YYYY-MM-DD`. -/
def w7_recs : List Record :=
  [⟨1, some "1970-01-02T10:00:00Z", none, none, none⟩,
   ⟨2, none, none, none, none⟩,
   ⟨3, none, some "bogus", none, none⟩]

def w7_remote : Remote :=
  ⟨fun _ => none, fun s e => if s = 0 ∧ e = 2 then some w7_recs else none⟩

/-- The bucket a record lands in during the hybrid gap re-partition:
extraction chain `date / created_at / timestamp / startTime`,
10-character parse, keep only the gap's own days. -/
def hyb_assign (gs ge : Int) (r : Record) : Option Int :=
  match hybrid_date_str r with
  | none => none
  | some dstr =>
    match parse10 (take10 dstr) with
    | none => none
    | some d => if gs ≤ d ∧ d ≤ ge then some d else none

/-- One step of the hybrid re-partition fold, phrased through
`hyb_assign`. -/
def hyb_step (gs ge : Int) (m : List (Int × List Record)) (r : Record) :
    List (Int × List Record) :=
  match hyb_assign gs ge r with
  | some d => append_day m d r
  | none => m

/-- Seeded remote data for the C9 witness: two records inside the
requested range (days 1 and 0 of the epoch) and one beyond it
(day 4). -/
def w9_seeded : List Record :=
  [⟨1, some "1970-01-02T01:00:00Z", none, none, none⟩,
   ⟨2, some "1970-01-01T05:00:00Z", none, none, none⟩,
   ⟨3, some "1970-01-05T00:00:00Z", none, none, none⟩]

/-- The day each C9 witness record belongs to. -/
def w9_day (r : Record) : Int :=
  if r.id = 1 then 1 else if r.id = 2 then 0 else 4

/- ==================================================================
Store lemmas.
================================================================== -/

theorem read_entry_data_date {s : Store} {d : Int} {e : CacheEntry}
    (h : read_entry s d = some e) : e.data_date = d := by
  induction s with
  | nil => simp [read_entry] at h
  | cons x xs ih =>
    by_cases hx : x.data_date = d
    · simp [read_entry, hx] at h
      rw [← h, hx]
    · simp [read_entry, hx] at h
      exact ih h

theorem read_entry_eq_none_of_not_any {s : Store} {d : Int}
    (h : s.any (fun x => x.data_date == d) = false) : read_entry s d = none := by
  induction s with
  | nil => rfl
  | cons x xs ih =>
    simp only [List.any_cons, Bool.or_eq_false_iff] at h
    have hb : ¬ (x.data_date == d) = true := by rw [h.1]; exact Bool.false_ne_true
    simp only [read_entry, if_neg hb]
    exact ih h.2

theorem read_entry_append (s t : Store) (d : Int) :
    read_entry (s ++ t) d =
      match read_entry s d with
      | some e => some e
      | none => read_entry t d := by
  induction s with
  | nil => simp [read_entry]
  | cons x xs ih =>
    by_cases hx : x.data_date = d
    · simp [read_entry, hx]
    · simp [read_entry, hx, ih]

theorem read_entry_replace (s : Store) (e : CacheEntry) :
    read_entry (s.map (fun x => if x.data_date == e.data_date then e else x)) e.data_date
      = if s.any (fun x => x.data_date == e.data_date) then some e else none := by
  induction s with
  | nil => rfl
  | cons x xs ih =>
    by_cases hx : x.data_date = e.data_date
    · have hxe : (if x.data_date == e.data_date then e else x) = e := by simp [hx]
      simp [List.map_cons, hxe, read_entry, hx]
    · have hxe : (if x.data_date == e.data_date then e else x) = x := by simp [hx]
      have hb : ¬ (x.data_date == e.data_date) = true := by simp [hx]
      simp only [List.map_cons, hxe, List.any_cons, read_entry, if_neg hb]
      simp only [show (x.data_date == e.data_date) = false by simp [hx], Bool.false_or]
      exact ih

theorem read_write_entry_self (s : Store) (e : CacheEntry) :
    read_entry (write_entry s e) e.data_date = some e := by
  unfold write_entry
  split
  · rename_i h
    rw [read_entry_replace, if_pos h]
  · rename_i h
    rw [Bool.not_eq_true] at h
    have h0 : read_entry s e.data_date = none := read_entry_eq_none_of_not_any h
    rw [read_entry_append, h0]
    simp [read_entry]

theorem read_entry_map_replace_other (s : Store) (e : CacheEntry) (d : Int)
    (hd : d ≠ e.data_date) :
    read_entry (s.map (fun x => if x.data_date == e.data_date then e else x)) d
      = read_entry s d := by
  have hed : ¬ e.data_date = d := fun h => hd h.symm
  induction s with
  | nil => rfl
  | cons x xs ih =>
    by_cases hx : x.data_date = e.data_date
    · have hxe : (if x.data_date == e.data_date then e else x) = e := by simp [hx]
      have hxd : ¬ (x.data_date == d) = true := by simp [hx]; exact hed
      have hed2 : ¬ (e.data_date == d) = true := by simp; exact hed
      simp only [List.map_cons, hxe, read_entry, if_neg hxd, if_neg hed2]
      exact ih
    · have hxe : (if x.data_date == e.data_date then e else x) = x := by simp [hx]
      simp only [List.map_cons, hxe, read_entry]
      by_cases hxd : x.data_date = d
      · simp [hxd]
      · have hb : ¬ (x.data_date == d) = true := by simp [hxd]
        simp only [if_neg hb]
        exact ih

theorem read_write_entry_other (s : Store) (e : CacheEntry) (d : Int)
    (hd : d ≠ e.data_date) : read_entry (write_entry s e) d = read_entry s d := by
  unfold write_entry
  split
  · exact read_entry_map_replace_other s e d hd
  · rw [read_entry_append]
    have h1 : read_entry [e] d = none := by
      simp [read_entry]
      exact fun h => hd h.symm
    rw [h1]
    cases read_entry s d <;> rfl

theorem storewf_write_entry {s : Store} (e : CacheEntry) (h : StoreWF s) :
    StoreWF (write_entry s e) := by
  unfold write_entry
  split
  · unfold StoreWF at h ⊢
    have hkeys : (s.map (fun x => if x.data_date == e.data_date then e else x)).map
        CacheEntry.data_date = s.map CacheEntry.data_date := by
      rw [List.map_map]
      apply List.map_congr_left
      intro x _
      by_cases hx : x.data_date = e.data_date
      · simp [hx]
      · simp [hx]
    rw [hkeys]
    exact h
  · rename_i hany
    rw [Bool.not_eq_true] at hany
    unfold StoreWF at h ⊢
    rw [List.map_append]
    simp only [List.map_cons, List.map_nil]
    rw [List.nodup_append]
    refine ⟨h, List.nodup_singleton _, ?_⟩
    intro a ha
    simp only [List.mem_singleton]
    intro hae
    rw [List.mem_map] at ha
    obtain ⟨x, hx, hxa⟩ := ha
    rw [List.any_eq_false] at hany
    have := hany x hx
    simp only [beq_iff_eq] at this
    exact this (hxa.trans hae)

theorem read_save_logs_self (s : Store) (day : Int) (logs : List Record)
    (fetched_on execution_date : Int) :
    read_entry (save_logs s day logs fetched_on execution_date) day
      = some ⟨logs, day, fetched_on,
          get_max_known_non_empty_data_date s day execution_date⟩ := by
  unfold save_logs
  exact read_write_entry_self s _

theorem read_save_logs_other (s : Store) (day : Int) (logs : List Record)
    (fetched_on execution_date : Int) (d : Int) (hd : d ≠ day) :
    read_entry (save_logs s day logs fetched_on execution_date) d = read_entry s d := by
  unfold save_logs
  exact read_write_entry_other s _ d hd

theorem storewf_save_logs {s : Store} (day : Int) (logs : List Record)
    (fetched_on execution_date : Int) (h : StoreWF s) :
    StoreWF (save_logs s day logs fetched_on execution_date) :=
  storewf_write_entry _ h

/- ==================================================================
Claim theorems: per-day fetch and probe.
================================================================== -/

/-- Claim C1 (confirmed): for a day strictly before the execution date,
with cache-only mode off, a cached entry whose
`confirmed_complete_up_to_date` is set and strictly greater than its
`data_date` is served verbatim — the per-day fetch returns exactly the
entry's logs (empty or not) and leaves the entire state, including the
remote request log and the cache, untouched, so zero remote queries
are issued. -/
theorem C1_trust_short_circuit (remote : Remote) (st : SysState)
    (execution_date day : Int) (e : CacheEntry) (c : Int)
    (hday : day < execution_date)
    (hread : read_entry st.store day = some e)
    (hconf : e.confirmed_complete_up_to_date = some c)
    (hgt : c > e.data_date) :
    fetch_day remote st execution_date day false
      = ((e.logs, if e.logs ≠ [] then some day else none), st) := by
  unfold fetch_day
  rw [if_neg (by intro h; exact absurd h.1 (by omega))]
  have h2 : fetch_day_needs_api st.store execution_date day false = false := by
    unfold fetch_day_needs_api
    rw [hread]
    have hne : ¬ (day == execution_date) = true := by simp; omega
    simp only [hne, if_false, Bool.false_eq_true, if_neg]
    simp [hconf]
    omega
  rw [h2]
  simp [hread]

/-- Witness for C1 at a concrete trusted past day. -/
theorem C1_trust_short_circuit_witness :
    fetch_day w_remote w_state 10 5 false = (([w_record], some 5), w_state) :=
  C1_trust_short_circuit w_remote w_state 10 5 w_entry 7 (by decide) (by decide)
    (by decide) (by decide)

/-- Claim C2 (confirmed): fetching the day equal to the execution date
with cache-only mode off always issues the remote day query, whatever
the cache holds and whatever any stamp says. -/
theorem C2_today_exception (remote : Remote) (st : SysState) (execution_date : Int) :
    ((fetch_day remote st execution_date execution_date false).2).requests
      = st.requests ++ [Query.dayQ execution_date none] := by
  unfold fetch_day
  rw [if_neg (by intro h; exact absurd h.1 (by omega))]
  have h2 : fetch_day_needs_api st.store execution_date execution_date false = true := by
    unfold fetch_day_needs_api
    cases hread : read_entry st.store execution_date with
    | none => simp
    | some e => simp
  rw [h2]
  simp only [if_pos rfl]
  cases remote.dayQuery execution_date <;> simp

/-- Claim C8 (confirmed): when a per-day refetch's remote query fails
(`ApiError`), the fetch returns an empty log list and performs no
cache write and no session marking — only the failed request is
recorded — so the cache state for the day is unchanged. -/
theorem C8_remote_error_atomicity (remote : Remote) (st : SysState)
    (execution_date day : Int) (force_cache : Bool)
    (hday : day ≤ execution_date)
    (hneeds : fetch_day_needs_api st.store execution_date day force_cache = true)
    (hfail : remote.dayQuery day = none) :
    fetch_day remote st execution_date day force_cache
      = (([], none), { st with requests := st.requests ++ [Query.dayQ day none] }) := by
  unfold fetch_day
  rw [if_neg (by intro h; exact absurd h.1 (by omega))]
  rw [hneeds, hfail]
  simp

/-- Witness for C8: an uncached past day whose remote query fails. -/
theorem C8_remote_error_atomicity_witness :
    fetch_day w_remote ⟨[], [], []⟩ 10 5 false
      = (([], none), ⟨[], [], [Query.dayQ 5 none]⟩) :=
  C8_remote_error_atomicity w_remote ⟨[], [], []⟩ 10 5 false (by decide) (by decide) rfl

/-- Claim C4 (confirmed): the completeness probe returns `true` exactly
when its 1-capped day query yields at least one record; then it writes
the (truncated) entry for the probe day through the common write path;
on an empty result or a transport failure it returns `false` and the
cache is untouched. -/
theorem C4_probe_result_semantics (remote : Remote) (st : SysState)
    (probe_day execution_date : Int) :
    ((perform_latest_data_probe remote st probe_day execution_date).1 = true
        ↔ ∃ l ls, remote.dayQuery probe_day = some (l :: ls))
      ∧ ((perform_latest_data_probe remote st probe_day execution_date).1 = false →
          (perform_latest_data_probe remote st probe_day execution_date).2.store = st.store)
      ∧ (∀ l ls, remote.dayQuery probe_day = some (l :: ls) →
          (perform_latest_data_probe remote st probe_day execution_date).2.store
            = save_logs st.store probe_day [l] execution_date execution_date) := by
  unfold perform_latest_data_probe
  cases hq : remote.dayQuery probe_day with
  | none =>
    refine ⟨by simp, by intro _; rfl, ?_⟩
    intro l ls h
    exact absurd h (by simp)
  | some ls =>
    cases ls with
    | nil =>
      refine ⟨by simp, by intro _; rfl, ?_⟩
      intro l ls h
      simp at h
    | cons l rest =>
      refine ⟨by simp, by intro h; simp at h, ?_⟩
      intro l' ls' h
      simp only [Option.some_inj, List.cons.injEq] at h
      obtain ⟨hl, _⟩ := h
      subst hl
      simp

/-- Witness for C4: a probe day with three remote records yields `true`
and writes the truncated entry. -/
theorem C4_probe_result_semantics_witness :
    (perform_latest_data_probe w_probe_remote ⟨[], [], []⟩ 9 10).1 = true
      ∧ (perform_latest_data_probe w_probe_remote ⟨[], [], []⟩ 9 10).2.store
          = save_logs ([] : Store) 9 [⟨1, none, none, none, none⟩] 10 10 :=
  ⟨(C4_probe_result_semantics w_probe_remote ⟨[], [], []⟩ 9 10).1.mpr
      ⟨⟨1, none, none, none, none⟩, [⟨2, none, none, none, none⟩, ⟨3, none, none, none, none⟩], rfl⟩,
    (C4_probe_result_semantics w_probe_remote ⟨[], [], []⟩ 9 10).2.2
      ⟨1, none, none, none, none⟩ [⟨2, none, none, none, none⟩, ⟨3, none, none, none, none⟩] rfl⟩

/-- Claim C10 (confirmed): a successful probe stores, for the probe
day, an entry holding at most one record — the 1-capped truncation of
the remote's records for that day — written through the very same
`_save_logs` path as a full per-day fetch. -/
theorem C10_probe_truncation (remote : Remote) (st : SysState)
    (probe_day execution_date : Int) (l : Record) (ls : List Record)
    (hq : remote.dayQuery probe_day = some (l :: ls)) :
    ((perform_latest_data_probe remote st probe_day execution_date).2.store
        = save_logs st.store probe_day ((l :: ls).take 1) execution_date execution_date)
      ∧ ∃ e, read_entry (perform_latest_data_probe remote st probe_day execution_date).2.store
            probe_day = some e
          ∧ e.logs = (l :: ls).take 1 ∧ e.logs.length ≤ 1 := by
  have h1 : (perform_latest_data_probe remote st probe_day execution_date).2.store
      = save_logs st.store probe_day [l] execution_date execution_date := by
    unfold perform_latest_data_probe
    rw [hq]
    simp
  refine ⟨by rw [h1]; rfl, ?_⟩
  refine ⟨⟨[l], probe_day, execution_date,
    get_max_known_non_empty_data_date st.store probe_day execution_date⟩, ?_, rfl, by simp⟩
  rw [h1]
  exact read_save_logs_self st.store probe_day [l] execution_date execution_date

/- ==================================================================
Range and maximum lemmas.
================================================================== -/

theorem mem_int_range {a b d : Int} : d ∈ int_range a b ↔ a ≤ d ∧ d ≤ b := by
  unfold int_range
  constructor
  · intro h
    obtain ⟨i, hi, hd⟩ := List.mem_map.mp h
    have hi2 := List.mem_range.mp hi
    omega
  · intro h
    apply List.mem_map.mpr
    refine ⟨(d - a).toNat, List.mem_range.mpr (by omega), by omega⟩

theorem foldl_max_ge_init (xs : List Int) (a : Int) :
    a ≤ xs.foldl (fun a b => if b > a then b else a) a := by
  induction xs generalizing a with
  | nil => simp
  | cons x xs ih =>
    simp only [List.foldl_cons]
    by_cases hx : x > a
    · simp only [if_pos hx]
      have := ih x
      omega
    · simp only [if_neg hx]
      exact ih a

theorem foldl_max_ge_mem (xs : List Int) (a x : Int) (hx : x ∈ xs) :
    x ≤ xs.foldl (fun a b => if b > a then b else a) a := by
  induction xs generalizing a with
  | nil => simp at hx
  | cons y ys ih =>
    simp only [List.foldl_cons]
    rcases List.mem_cons.mp hx with h | h
    · subst h
      by_cases hy : x > a
      · simp only [if_pos hy]
        exact foldl_max_ge_init ys x
      · simp only [if_neg hy]
        have := foldl_max_ge_init ys a
        omega
    · exact ih _ h

theorem foldl_max_mem_or (xs : List Int) (a : Int) :
    xs.foldl (fun a b => if b > a then b else a) a = a
      ∨ xs.foldl (fun a b => if b > a then b else a) a ∈ xs := by
  induction xs generalizing a with
  | nil => left; rfl
  | cons y ys ih =>
    simp only [List.foldl_cons]
    by_cases hy : y > a
    · simp only [if_pos hy]
      rcases ih y with h | h
      · right; rw [h]; exact List.mem_cons_self _ _
      · right; exact List.mem_cons_of_mem _ h
    · simp only [if_neg hy]
      rcases ih a with h | h
      · left; exact h
      · right; exact List.mem_cons_of_mem _ h

theorem le_list_max {l : List Int} {x : Int} (dflt : Int) (hx : x ∈ l) :
    x ≤ list_max l dflt := by
  cases l with
  | nil => simp at hx
  | cons y ys =>
    simp only [list_max]
    rcases List.mem_cons.mp hx with h | h
    · subst h
      exact foldl_max_ge_init ys x
    · exact foldl_max_ge_mem ys y x h

theorem list_max_mem {l : List Int} (dflt : Int) (h : l ≠ []) :
    list_max l dflt ∈ l := by
  cases l with
  | nil => exact absurd rfl h
  | cons y ys =>
    simp only [list_max]
    rcases foldl_max_mem_or ys y with h1 | h1
    · rw [h1]; exact List.mem_cons_self _ _
    · exact List.mem_cons_of_mem _ h1

/-- The days a range request actually iterates (`d <= execution_date`
filter of the requested range), and its maximum. -/
theorem mem_range_days {start eend execution_date d : Int} :
    d ∈ (int_range start eend).filter (fun d => decide (d ≤ execution_date))
      ↔ start ≤ d ∧ d ≤ eend ∧ d ≤ execution_date := by
  rw [List.mem_filter]
  simp [mem_int_range]
  omega

theorem range_days_max {start eend execution_date : Int} (dflt : Int)
    (h : start ≤ eend) (h2 : start ≤ execution_date) :
    list_max ((int_range start eend).filter (fun d => decide (d ≤ execution_date))) dflt
      = min eend execution_date := by
  have hne : (int_range start eend).filter (fun d => decide (d ≤ execution_date)) ≠ [] := by
    intro hnil
    have : min eend execution_date
        ∈ (int_range start eend).filter (fun d => decide (d ≤ execution_date)) := by
      rw [mem_range_days]
      omega
    rw [hnil] at this
    simp at this
  have hmem := list_max_mem dflt hne
  rw [mem_range_days] at hmem
  have hub : min eend execution_date
      ≤ list_max ((int_range start eend).filter (fun d => decide (d ≤ execution_date))) dflt := by
    apply le_list_max
    rw [mem_range_days]
    omega
  omega

/-- Counterexample to claim C3 as stated: a single-day range `[5, 5]`
with execution date 10, whose one cached entry has non-empty logs and
`confirmed_complete_up_to_date = 5` — equal to the day, so not
trustworthy in the claim's strict sense.  All four of the claim's
conditions hold, yet `DailyStreamer` performs no probe: the code's
deficiency test is `confirmed < day`, which tolerates `confirmed ==
day`. -/
theorem C3_probe_trigger_counterexample :
    spec_probe_trigger [⟨[w_record], 5, 5, some 5⟩] 5 5 10
      ∧ daily_probe_plan [⟨[w_record], 5, 5, some 5⟩] 5 5 10 false = none :=
  ⟨by decide, by decide⟩

theorem any_optimistic_iff (s : Store) (days : List Int) (M : Int) :
    (days.any (fun d =>
        match read_entry s d with
        | some e =>
          match e.confirmed_complete_up_to_date with
          | some c => decide (c > M)
          | none => false
        | none => false)) = true
      ↔ ∃ d ∈ days, ∃ e, read_entry s d = some e
          ∧ ∃ c, e.confirmed_complete_up_to_date = some c ∧ M < c := by
  rw [List.any_eq_true]
  constructor
  · rintro ⟨d, hd, hb⟩
    refine ⟨d, hd, ?_⟩
    cases hre : read_entry s d with
    | none => rw [hre] at hb; simp at hb
    | some e =>
      rw [hre] at hb
      have hb2 : (match e.confirmed_complete_up_to_date with
          | some c => decide (c > M)
          | none => false) = true := hb
      cases hc : e.confirmed_complete_up_to_date with
      | none => rw [hc] at hb2; simp at hb2
      | some c =>
        rw [hc] at hb2
        simp at hb2
        exact ⟨e, rfl, c, hc, hb2⟩
  · rintro ⟨d, hd, e, hre, c, hc, hMc⟩
    refine ⟨d, hd, ?_⟩
    rw [hre]
    have hb2 : (match e.confirmed_complete_up_to_date with
        | some c => decide (c > M)
        | none => false) = true := by
      rw [hc]
      simpa using hMc
    exact hb2

theorem any_later_iff (s : Store) (M execution_date : Int) :
    (s.any (fun e =>
        e.data_date ≤ execution_date && e.data_date > M && !e.logs.isEmpty)) = true
      ↔ ∃ e ∈ s, e.data_date ≤ execution_date ∧ M < e.data_date ∧ e.logs ≠ [] := by
  rw [List.any_eq_true]
  constructor
  · rintro ⟨e, he, hb⟩
    simp only [Bool.and_eq_true, decide_eq_true_eq, Bool.not_eq_true',
      List.isEmpty_eq_false] at hb
    exact ⟨e, he, hb.1.1, hb.1.2, hb.2⟩
  · rintro ⟨e, he, h1, h2, h3⟩
    refine ⟨e, he, ?_⟩
    simp only [Bool.and_eq_true, decide_eq_true_eq, Bool.not_eq_true',
      List.isEmpty_eq_false]
    exact ⟨⟨h1, h2⟩, h3⟩

theorem any_deficient_iff (s : Store) (days : List Int) (execution_date : Int) :
    (days.any (fun d =>
        if d ≥ execution_date then false
        else
          match read_entry s d with
          | none => true
          | some e =>
            e.logs.isEmpty ||
              (match e.confirmed_complete_up_to_date with
               | none => true
               | some c => decide (c < d)))) = true
      ↔ ∃ d ∈ days, d < execution_date ∧ day_deficient s d := by
  rw [List.any_eq_true]
  constructor
  · rintro ⟨d, hd, hb⟩
    by_cases hge : d ≥ execution_date
    · rw [if_pos hge] at hb; simp at hb
    · rw [if_neg hge] at hb
      refine ⟨d, hd, by omega, ?_⟩
      cases hre : read_entry s d with
      | none => exact Or.inl hre
      | some e =>
        rw [hre] at hb
        have hb2 : (e.logs.isEmpty ||
            (match e.confirmed_complete_up_to_date with
             | none => true
             | some c => decide (c < d))) = true := hb
        refine Or.inr ⟨e, hre, ?_⟩
        rcases Bool.or_eq_true _ _ |>.mp hb2 with h | h
        · exact Or.inl (by simpa using h)
        · cases hc : e.confirmed_complete_up_to_date with
          | none => exact Or.inr (Or.inl rfl)
          | some c =>
            rw [hc] at h
            simp at h
            exact Or.inr (Or.inr ⟨c, rfl, h⟩)
  · rintro ⟨d, hd, hlt, hdef⟩
    refine ⟨d, hd, ?_⟩
    rw [if_neg (by omega)]
    rcases hdef with h | ⟨e, hre, hcase⟩
    · rw [h]
    · rw [hre]
      have hb2 : (e.logs.isEmpty ||
          (match e.confirmed_complete_up_to_date with
           | none => true
           | some c => decide (c < d))) = true := by
        rcases hcase with h | h | ⟨c, hc, hcd⟩
        · simp [h]
        · rw [h]; simp
        · rw [hc]; simp [hcd]
      exact hb2

/-- Characterization of `DailyStreamer._should_probe_for_completeness`
over an arbitrary day list: probe iff some day is strictly past, no
day's cached stamp exceeds the range maximum, no cached day beyond the
range maximum (within the scan bound) has data, and some strictly past
day is deficient. -/
theorem should_probe_iff (s : Store) (days : List Int) (execution_date : Int) :
    should_probe_for_completeness s days execution_date = true
      ↔ (∃ d ∈ days, d < execution_date)
        ∧ (∀ d ∈ days, ∀ e, read_entry s d = some e →
            ∀ c, e.confirmed_complete_up_to_date = some c → c ≤ list_max days 0)
        ∧ (∀ e ∈ s, e.data_date ≤ execution_date → list_max days 0 < e.data_date →
            e.logs = [])
        ∧ (∃ d ∈ days, d < execution_date ∧ day_deficient s d) := by
  unfold should_probe_for_completeness
  by_cases hg1 : (days.any (fun d => decide (d < execution_date))) = true
  · rw [if_neg (by rw [hg1]; simp)]
    have hg1p : ∃ d ∈ days, d < execution_date := by
      rw [List.any_eq_true] at hg1
      simpa using hg1
    by_cases hg2 : (days.any (fun d =>
        match read_entry s d with
        | some e =>
          match e.confirmed_complete_up_to_date with
          | some c => decide (c > list_max days 0)
          | none => false
        | none => false)) = true
    · rw [if_pos hg2]
      simp only [Bool.false_eq_true, false_iff]
      rintro ⟨_, h2, _, _⟩
      rw [any_optimistic_iff] at hg2
      obtain ⟨d, hd, e, hre, c, hc, hMc⟩ := hg2
      exact absurd (h2 d hd e hre c hc) (by omega)
    · rw [if_neg hg2]
      by_cases hg3 : (s.any (fun e =>
          e.data_date ≤ execution_date && e.data_date > list_max days 0
            && !e.logs.isEmpty)) = true
      · rw [if_pos hg3]
        simp only [Bool.false_eq_true, false_iff]
        rintro ⟨_, _, h3, _⟩
        rw [any_later_iff] at hg3
        obtain ⟨e, he, h1, h2', h3'⟩ := hg3
        exact h3' (h3 e he h1 h2')
      · rw [if_neg hg3]
        rw [any_deficient_iff]
        constructor
        · intro h4
          refine ⟨hg1p, ?_, ?_, h4⟩
          · intro d hd e hre c hc
            by_contra hcon
            exact hg2 ((any_optimistic_iff s days _).mpr
              ⟨d, hd, e, hre, c, hc, by omega⟩)
          · intro e he h1 h2
            by_contra hcon
            exact hg3 ((any_later_iff s _ _).mpr ⟨e, he, h1, h2, hcon⟩)
        · rintro ⟨_, _, _, h4⟩
          exact h4
  · rw [if_pos (by rw [Bool.not_eq_true] at hg1; rw [hg1]; rfl)]
    simp only [Bool.false_eq_true, false_iff]
    rintro ⟨h1, _, _, _⟩
    apply hg1
    rw [List.any_eq_true]
    simpa using h1

theorem daily_probe_plan_eq (s : Store) (start eend execution_date : Int) :
    daily_probe_plan s start eend execution_date false
      = (if should_probe_for_completeness s
            ((int_range start eend).filter (fun d => decide (d ≤ execution_date))).reverse
            execution_date = true then
          some (if list_max ((int_range start eend).filter
                (fun d => decide (d ≤ execution_date))).reverse 0 + 1 > execution_date then
              execution_date
            else
              list_max ((int_range start eend).filter
                (fun d => decide (d ≤ execution_date))).reverse 0 + 1)
        else none) := rfl

/-- Claim C3, amended (the claim as stated fails, see the
counterexample): with cache-only mode off, `DailyStreamer` probes
exactly when (c) the requested range contains a day strictly before
the execution date, (b′) no day of the range has a cached stamp
strictly beyond the range maximum `min(end, execution_date)`, (b) no
cached day within the scan bound strictly after that maximum has
non-empty logs, and (d′) some day of the range strictly before the
execution date is deficient — uncached, or cached with empty logs, or
with a stamp that is absent or strictly below the day (a stamp equal
to the day counts as satisfied, unlike the claim's strict
trustworthiness).  The probed day is the range maximum plus one,
clamped to the execution date. -/
theorem C3_probe_trigger_amended (s : Store) (start eend execution_date p : Int) :
    daily_probe_plan s start eend execution_date false = some p
      ↔ (∃ d ∈ int_range start eend, d < execution_date)
        ∧ (∀ d ∈ int_range start eend, d ≤ execution_date →
            ∀ e, read_entry s d = some e →
              ∀ c, e.confirmed_complete_up_to_date = some c →
                c ≤ min eend execution_date)
        ∧ (∀ e ∈ s, e.data_date ≤ execution_date →
            min eend execution_date < e.data_date → e.logs = [])
        ∧ (∃ d ∈ int_range start eend, d < execution_date ∧ day_deficient s d)
        ∧ p = min (min eend execution_date + 1) execution_date := by
  rw [daily_probe_plan_eq]
  set L := ((int_range start eend).filter (fun d => decide (d ≤ execution_date))).reverse
    with hL
  have hmemrev : ∀ d : Int, d ∈ L ↔ (start ≤ d ∧ d ≤ eend ∧ d ≤ execution_date) := by
    intro d
    rw [hL, List.mem_reverse]
    exact mem_range_days
  by_cases hc1 : ∃ d ∈ int_range start eend, d < execution_date
  · obtain ⟨d0, hd0r, hd0lt⟩ := hc1
    have hd0 := mem_int_range.mp hd0r
    have hM : list_max L 0 = min eend execution_date := by
      have hne : L ≠ [] := by
        intro h
        have hmm : d0 ∈ L := (hmemrev d0).mpr ⟨hd0.1, hd0.2, by omega⟩
        rw [h] at hmm
        simp at hmm
      have hmem := list_max_mem 0 hne
      rw [hmemrev] at hmem
      have hub : min eend execution_date ≤ list_max L 0 := by
        apply le_list_max
        rw [hmemrev]
        omega
      omega
    by_cases hsp : should_probe_for_completeness s L execution_date = true
    · rw [if_pos hsp]
      obtain ⟨_, hA2, hA3, hA4⟩ := (should_probe_iff s L execution_date).mp hsp
      rw [hM] at hA3
      have hval : (if list_max L 0 + 1 > execution_date then execution_date
          else list_max L 0 + 1) = min (min eend execution_date + 1) execution_date := by
        rw [hM]
        split <;> omega
      rw [hval]
      constructor
      · intro h
        have hp : p = min (min eend execution_date + 1) execution_date := by
          exact (Option.some_inj.mp h).symm
        refine ⟨⟨d0, hd0r, hd0lt⟩, ?_, hA3, ?_, hp⟩
        · intro d hdr hdle e hre c hc
          have hdm := mem_int_range.mp hdr
          have := hA2 d ((hmemrev d).mpr ⟨hdm.1, hdm.2, hdle⟩) e hre c hc
          rw [hM] at this
          exact this
        · obtain ⟨d, hdm, hdlt, hdef⟩ := hA4
          rw [hmemrev] at hdm
          exact ⟨d, mem_int_range.mpr ⟨hdm.1, hdm.2.1⟩, hdlt, hdef⟩
      · rintro ⟨_, _, _, _, hp⟩
        rw [hp]
    · rw [if_neg hsp]
      constructor
      · intro h
        simp at h
      · rintro ⟨hB1, hB2, hB3, hB4, _⟩
        exfalso
        apply hsp
        rw [should_probe_iff]
        refine ⟨⟨d0, (hmemrev d0).mpr ⟨hd0.1, hd0.2, by omega⟩, hd0lt⟩, ?_, ?_, ?_⟩
        · intro d hdm e hre c hc
          rw [hmemrev] at hdm
          rw [hM]
          exact hB2 d (mem_int_range.mpr ⟨hdm.1, hdm.2.1⟩) hdm.2.2 e hre c hc
        · intro e he h1 h2
          rw [hM] at h2
          exact hB3 e he h1 h2
        · obtain ⟨d, hdr, hdlt, hdef⟩ := hB4
          have hdm := mem_int_range.mp hdr
          exact ⟨d, (hmemrev d).mpr ⟨hdm.1, hdm.2, by omega⟩, hdlt, hdef⟩
  · have hspf : ¬ should_probe_for_completeness s L execution_date = true := by
      intro hsp
      obtain ⟨⟨d, hdm, hdlt⟩, _, _, _⟩ := (should_probe_iff s L execution_date).mp hsp
      rw [hmemrev] at hdm
      exact hc1 ⟨d, mem_int_range.mpr ⟨hdm.1, hdm.2.1⟩, hdlt⟩
    rw [if_neg hspf]
    constructor
    · intro h
      simp at h
    · rintro ⟨hB1, _⟩
      exact absurd hB1 hc1

/-- Witness for the amended C3: an uncached two-day past range fires a
probe at the day after the range, and all four code conditions hold. -/
theorem C3_probe_trigger_amended_witness :
    (∃ d ∈ int_range 3 4, d < 10)
      ∧ (∀ d ∈ int_range 3 4, d ≤ 10 →
          ∀ e, read_entry ([] : Store) d = some e →
            ∀ c, e.confirmed_complete_up_to_date = some c → c ≤ min 4 10)
      ∧ (∀ e ∈ ([] : Store), e.data_date ≤ 10 → min 4 10 < e.data_date → e.logs = [])
      ∧ (∃ d ∈ int_range 3 4, d < 10 ∧ day_deficient [] d)
      ∧ (5 : Int) = min (min 4 10 + 1) 10 :=
  (C3_probe_trigger_amended [] 3 4 10 5).mp (by decide)

theorem get_global_latest_eq_fold (s : Store) (execution_date : Int) :
    get_global_latest_non_empty_date s execution_date
      = s.foldl (entry_opt_max_step
          (fun e => e.data_date ≤ execution_date ∧ e.logs ≠ [])) none := rfl

theorem get_max_known_eq_fold (s : Store) (current execution_date : Int) :
    get_max_known_non_empty_data_date s current execution_date
      = s.foldl (entry_opt_max_step
          (fun e => e.data_date ≤ execution_date ∧ current < e.data_date ∧ e.logs ≠ []))
          none := rfl

theorem entry_opt_max_step_none (P : CacheEntry → Prop) [DecidablePred P]
    (e : CacheEntry) :
    entry_opt_max_step P none e = if P e then some e.data_date else none := by
  by_cases hP : P e <;> simp [entry_opt_max_step, hP]

theorem entry_opt_max_step_some (P : CacheEntry → Prop) [DecidablePred P]
    (m : Int) (e : CacheEntry) :
    entry_opt_max_step P (some m) e
      = if P e then (if e.data_date > m then some e.data_date else some m)
        else some m := by
  by_cases hP : P e <;> simp [entry_opt_max_step, hP]

theorem opt_max_fold_ne_none (P : CacheEntry → Prop) [DecidablePred P] :
    ∀ (s : Store) (a : Int), s.foldl (entry_opt_max_step P) (some a) ≠ none := by
  intro s
  induction s with
  | nil => intro a h; simp at h
  | cons x xs ih =>
    intro a h
    rw [List.foldl_cons, entry_opt_max_step_some] at h
    by_cases hP : P x
    · rw [if_pos hP] at h
      by_cases hgt : x.data_date > a
      · rw [if_pos hgt] at h; exact ih _ h
      · rw [if_neg hgt] at h; exact ih _ h
    · rw [if_neg hP] at h; exact ih _ h

theorem opt_max_fold_some_src (P : CacheEntry → Prop) [DecidablePred P] :
    ∀ (s : Store) (acc : Option Int) (g : Int),
      s.foldl (entry_opt_max_step P) acc = some g →
        acc = some g ∨ ∃ e ∈ s, P e ∧ e.data_date = g := by
  intro s
  induction s with
  | nil => intro acc g h; exact Or.inl h
  | cons x xs ih =>
    intro acc g h
    rw [List.foldl_cons] at h
    rcases ih _ g h with h2 | ⟨e, he, hPe, hde⟩
    · cases acc with
      | none =>
        rw [entry_opt_max_step_none] at h2
        by_cases hP : P x
        · rw [if_pos hP] at h2
          right
          exact ⟨x, List.mem_cons_self _ _, hP, by simpa using h2⟩
        · rw [if_neg hP] at h2
          simp at h2
      | some m =>
        rw [entry_opt_max_step_some] at h2
        by_cases hP : P x
        · rw [if_pos hP] at h2
          by_cases hgt : x.data_date > m
          · rw [if_pos hgt] at h2
            right
            exact ⟨x, List.mem_cons_self _ _, hP, by simpa using h2⟩
          · rw [if_neg hgt] at h2
            exact Or.inl h2
        · rw [if_neg hP] at h2
          exact Or.inl h2
    · right
      exact ⟨e, List.mem_cons_of_mem _ he, hPe, hde⟩

theorem opt_max_fold_acc_le (P : CacheEntry → Prop) [DecidablePred P] :
    ∀ (s : Store) (acc : Option Int) (g a : Int),
      s.foldl (entry_opt_max_step P) acc = some g → acc = some a → a ≤ g := by
  intro s
  induction s with
  | nil =>
    intro acc g a h ha
    rw [ha] at h
    simp at h
    omega
  | cons x xs ih =>
    intro acc g a h ha
    rw [List.foldl_cons] at h
    subst ha
    rw [entry_opt_max_step_some] at h
    by_cases hP : P x
    · rw [if_pos hP] at h
      by_cases hgt : x.data_date > a
      · rw [if_pos hgt] at h
        have := ih _ g x.data_date h rfl
        omega
      · rw [if_neg hgt] at h
        exact ih _ g a h rfl
    · rw [if_neg hP] at h
      exact ih _ g a h rfl

theorem opt_max_fold_mem_le (P : CacheEntry → Prop) [DecidablePred P] :
    ∀ (s : Store) (acc : Option Int) (g : Int),
      s.foldl (entry_opt_max_step P) acc = some g →
        ∀ e ∈ s, P e → e.data_date ≤ g := by
  intro s
  induction s with
  | nil => intro acc g _ e he; simp at he
  | cons x xs ih =>
    intro acc g h e he hPe
    rw [List.foldl_cons] at h
    rcases List.mem_cons.mp he with he1 | he1
    · subst he1
      cases acc with
      | none =>
        rw [entry_opt_max_step_none, if_pos hPe] at h
        exact opt_max_fold_acc_le P xs _ g e.data_date h rfl
      | some m =>
        rw [entry_opt_max_step_some, if_pos hPe] at h
        by_cases hgt : e.data_date > m
        · rw [if_pos hgt] at h
          exact opt_max_fold_acc_le P xs _ g e.data_date h rfl
        · rw [if_neg hgt] at h
          have := opt_max_fold_acc_le P xs _ g m h rfl
          omega
    · exact ih _ g h e he1 hPe

theorem opt_max_fold_isSome (P : CacheEntry → Prop) [DecidablePred P] :
    ∀ (s : Store) (acc : Option Int) (e : CacheEntry), e ∈ s → P e →
      ∃ g, s.foldl (entry_opt_max_step P) acc = some g := by
  intro s
  induction s with
  | nil => intro acc e he; simp at he
  | cons x xs ih =>
    intro acc e he hPe
    rw [List.foldl_cons]
    rcases List.mem_cons.mp he with he1 | he1
    · subst he1
      cases acc with
      | none =>
        rw [entry_opt_max_step_none, if_pos hPe]
        exact Option.ne_none_iff_exists'.mp (opt_max_fold_ne_none P xs e.data_date)
      | some m =>
        rw [entry_opt_max_step_some, if_pos hPe]
        by_cases hgt : e.data_date > m
        · rw [if_pos hgt]
          exact Option.ne_none_iff_exists'.mp (opt_max_fold_ne_none P xs e.data_date)
        · rw [if_neg hgt]
          exact Option.ne_none_iff_exists'.mp (opt_max_fold_ne_none P xs m)
    · exact ih _ e he1 hPe

/-- The maximal non-empty day after `d` coincides with the global
maximum `g` whenever `d` lies strictly below `g`. -/
theorem max_known_eq_global (s : Store) (execution_date d g : Int)
    (hgl : get_global_latest_non_empty_date s execution_date = some g) (hd : d < g) :
    get_max_known_non_empty_data_date s d execution_date = some g := by
  rw [get_global_latest_eq_fold] at hgl
  rw [get_max_known_eq_fold]
  rcases opt_max_fold_some_src
      (fun e => e.data_date ≤ execution_date ∧ e.logs ≠ []) s none g hgl
    with h | ⟨e0, he0, hP0, hd0⟩
  · simp at h
  · have hP' : e0.data_date ≤ execution_date ∧ d < e0.data_date ∧ e0.logs ≠ [] :=
      ⟨hP0.1, by omega, hP0.2⟩
    obtain ⟨m, hm⟩ := opt_max_fold_isSome
      (fun e => e.data_date ≤ execution_date ∧ d < e.data_date ∧ e.logs ≠ [])
      s none e0 he0 hP'
    have hge : g ≤ m := by
      have := opt_max_fold_mem_le
        (fun e => e.data_date ≤ execution_date ∧ d < e.data_date ∧ e.logs ≠ [])
        s none m hm e0 he0 hP'
      omega
    have hle : m ≤ g := by
      rcases opt_max_fold_some_src
          (fun e => e.data_date ≤ execution_date ∧ d < e.data_date ∧ e.logs ≠ [])
          s none m hm
        with h | ⟨e1, he1, hP1, hd1⟩
      · simp at h
      · have := opt_max_fold_mem_le
          (fun e => e.data_date ≤ execution_date ∧ e.logs ≠ [])
          s none g hgl e1 he1 ⟨hP1.1, hP1.2.2⟩
        omega
    rw [hm]
    congr 1
    omega

theorem opt_max_fold_profile_congr (P : CacheEntry → Prop) [DecidablePred P]
    (hP : ∀ e e', e.data_date = e'.data_date → e.logs = e'.logs → (P e ↔ P e')) :
    ∀ (s s' : Store), store_profile s' = store_profile s →
      ∀ acc, s'.foldl (entry_opt_max_step P) acc = s.foldl (entry_opt_max_step P) acc := by
  intro s
  induction s with
  | nil =>
    intro s' h acc
    cases s' with
    | nil => rfl
    | cons y ys => simp [store_profile] at h
  | cons x xs ih =>
    intro s' h acc
    cases s' with
    | nil => simp [store_profile] at h
    | cons y ys =>
      simp only [store_profile, List.map_cons, List.cons.injEq, Prod.mk.injEq] at h
      obtain ⟨⟨hdd, hlogs⟩, htail⟩ := h
      rw [List.foldl_cons, List.foldl_cons]
      have hiff := hP y x hdd hlogs
      have hstep : entry_opt_max_step P acc y = entry_opt_max_step P acc x := by
        cases acc with
        | none =>
          rw [entry_opt_max_step_none, entry_opt_max_step_none]
          by_cases hPx : P x
          · rw [if_pos hPx, if_pos (hiff.mpr hPx), hdd]
          · rw [if_neg hPx, if_neg (fun hy => hPx (hiff.mp hy))]
        | some m =>
          rw [entry_opt_max_step_some, entry_opt_max_step_some]
          by_cases hPx : P x
          · rw [if_pos hPx, if_pos (hiff.mpr hPx), hdd]
          · rw [if_neg hPx, if_neg (fun hy => hPx (hiff.mp hy))]
      rw [hstep]
      exact ih ys htail _

theorem max_known_profile_congr {s s' : Store} (current execution_date : Int)
    (h : store_profile s' = store_profile s) :
    get_max_known_non_empty_data_date s' current execution_date
      = get_max_known_non_empty_data_date s current execution_date := by
  rw [get_max_known_eq_fold, get_max_known_eq_fold]
  exact opt_max_fold_profile_congr
    (fun e => e.data_date ≤ execution_date ∧ current < e.data_date ∧ e.logs ≠ [])
    (fun e e' hd hl => by simp only [hd, hl]) s s' h none

theorem glne_profile_congr {s s' : Store} (execution_date : Int)
    (h : store_profile s' = store_profile s) :
    get_global_latest_non_empty_date s' execution_date
      = get_global_latest_non_empty_date s execution_date := by
  rw [get_global_latest_eq_fold, get_global_latest_eq_fold]
  exact opt_max_fold_profile_congr
    (fun e => e.data_date ≤ execution_date ∧ e.logs ≠ [])
    (fun e e' hd hl => by simp only [hd, hl]) s s' h none

/- ==================================================================
Upgrade-pass lemmas.
================================================================== -/

theorem read_entry_any {s : Store} {d : Int} {e : CacheEntry}
    (h : read_entry s d = some e) : s.any (fun x => x.data_date == d) = true := by
  induction s with
  | nil => simp [read_entry] at h
  | cons x xs ih =>
    by_cases hx : x.data_date = d
    · simp [hx]
    · simp only [read_entry] at h
      rw [if_neg (by simp [hx])] at h
      simp [ih h]

theorem wf_read_unique {s : Store} (hwf : StoreWF s) {d : Int} {e : CacheEntry}
    (h : read_entry s d = some e) : ∀ x ∈ s, x.data_date = d → x = e := by
  induction s with
  | nil => intro x hx; simp at hx
  | cons y ys ih =>
    intro x hx hxd
    unfold StoreWF at hwf
    simp only [List.map_cons, List.nodup_cons] at hwf
    by_cases hy : y.data_date = d
    · simp only [read_entry] at h
      rw [if_pos (by simp [hy])] at h
      rcases List.mem_cons.mp hx with h1 | h1
      · rw [h1]; exact Option.some_inj.mp h
      · exfalso
        apply hwf.1
        rw [List.mem_map]
        exact ⟨x, h1, by omega⟩
    · simp only [read_entry] at h
      rw [if_neg (by simp [hy])] at h
      rcases List.mem_cons.mp hx with h1 | h1
      · exact absurd (h1 ▸ hxd) hy
      · exact ih hwf.2 h x h1 hxd

/-- Overwriting a day with its own logs (stamp-only rewrite) leaves
the scan profile unchanged. -/
theorem save_logs_profile_overwrite {s : Store} (hwf : StoreWF s) {d : Int}
    {e : CacheEntry} (hre : read_entry s d = some e)
    (fetched_on execution_date : Int) :
    store_profile (save_logs s d e.logs fetched_on execution_date) = store_profile s := by
  have hd := read_entry_data_date hre
  unfold save_logs write_entry
  have hany : s.any (fun x => x.data_date ==
      (CacheEntry.mk e.logs d fetched_on
        (get_max_known_non_empty_data_date s d execution_date)).data_date) = true := by
    simpa using read_entry_any hre
  rw [if_pos hany]
  unfold store_profile
  rw [List.map_map]
  apply List.map_congr_left
  intro x hx
  by_cases hxd : x.data_date = d
  · have hx_eq : x = e := wf_read_unique hwf hre x hx hxd
    simp only [Function.comp]
    rw [if_pos (by simp [hxd])]
    rw [hx_eq]
    simp [hd]
  · simp only [Function.comp]
    rw [if_neg (by simp [hxd])]

theorem upgrade_step_read_other (execution_date eff : Int) (s : Store) (d d' : Int)
    (h : d' ≠ d) :
    read_entry (upgrade_step execution_date eff s d) d' = read_entry s d' := by
  unfold upgrade_step
  split
  · rfl
  · split
    · rfl
    · split
      · exact read_save_logs_other s d _ _ _ d' h
      · split
        · exact read_save_logs_other s d _ _ _ d' h
        · rfl

theorem upgrade_step_wf (execution_date eff : Int) {s : Store} (hwf : StoreWF s)
    (d : Int) : StoreWF (upgrade_step execution_date eff s d) := by
  unfold upgrade_step
  split
  · exact hwf
  · split
    · exact hwf
    · split
      · exact storewf_save_logs _ _ _ _ hwf
      · split
        · exact storewf_save_logs _ _ _ _ hwf
        · exact hwf

theorem upgrade_step_profile (execution_date eff : Int) {s : Store} (hwf : StoreWF s)
    (d : Int) :
    store_profile (upgrade_step execution_date eff s d) = store_profile s := by
  unfold upgrade_step
  split
  · rfl
  · split
    · rfl
    · rename_i e heq
      split
      · exact save_logs_profile_overwrite hwf heq _ _
      · split
        · exact save_logs_profile_overwrite hwf heq _ _
        · rfl

theorem upgrade_step_eq_of_read (execution_date eff : Int) (s : Store) (d : Int)
    (e : CacheEntry) (hre : read_entry s d = some e) (hnot : ¬ (d = eff ∨ d > eff)) :
    upgrade_step execution_date eff s d
      = (match e.confirmed_complete_up_to_date with
        | none => save_logs s d e.logs e.fetched_on_date execution_date
        | some c =>
          if c < eff then save_logs s d e.logs e.fetched_on_date execution_date
          else s) := by
  unfold upgrade_step
  rw [if_neg hnot, hre]

/-- Full specification of the upgrade loop over the session set: days
outside the set, and days at or beyond `eff`, are untouched; a day
below `eff` is rewritten (same logs, recomputed stamp) exactly when
its stamp is absent or below `eff`. -/
theorem upgrade_fold_spec (execution_date eff : Int) :
    ∀ (l : List Int) (s : Store), StoreWF s → l.Nodup →
      (∀ d, d ∉ l → read_entry (l.foldl (upgrade_step execution_date eff) s) d
          = read_entry s d)
      ∧ (∀ d ∈ l, d < eff → ∀ e, read_entry s d = some e →
          ((e.confirmed_complete_up_to_date = none
              ∨ ∃ c, e.confirmed_complete_up_to_date = some c ∧ c < eff) →
            read_entry (l.foldl (upgrade_step execution_date eff) s) d
              = some ⟨e.logs, d, e.fetched_on_date,
                  get_max_known_non_empty_data_date s d execution_date⟩)
          ∧ (∀ c, e.confirmed_complete_up_to_date = some c → eff ≤ c →
              read_entry (l.foldl (upgrade_step execution_date eff) s) d = some e))
      ∧ (∀ d ∈ l, eff ≤ d →
          read_entry (l.foldl (upgrade_step execution_date eff) s) d
            = read_entry s d) := by
  intro l
  induction l with
  | nil =>
    intro s hwf _
    refine ⟨fun d _ => rfl, fun d hd => absurd hd (by simp), fun d hd => absurd hd (by simp)⟩
  | cons x xs ih =>
    intro s hwf hnd
    rw [List.nodup_cons] at hnd
    have hwf' : StoreWF (upgrade_step execution_date eff s x) :=
      upgrade_step_wf execution_date eff hwf x
    obtain ⟨ih1, ih2, ih3⟩ := ih (upgrade_step execution_date eff s x) hwf' hnd.2
    have hprof : store_profile (upgrade_step execution_date eff s x) = store_profile s :=
      upgrade_step_profile execution_date eff hwf x
    refine ⟨?_, ?_, ?_⟩
    · intro d hd
      rw [List.mem_cons, not_or] at hd
      rw [List.foldl_cons, ih1 d hd.2,
        upgrade_step_read_other execution_date eff s x d hd.1]
    · intro d hd hdeff e hre
      rw [List.foldl_cons]
      rcases List.mem_cons.mp hd with h1 | h1
      · subst h1
        have hnot : ¬ (d = eff ∨ d > eff) := by omega
        constructor
        · intro hcase
          have hstep : upgrade_step execution_date eff s d
              = save_logs s d e.logs e.fetched_on_date execution_date := by
            rw [upgrade_step_eq_of_read execution_date eff s d e hre hnot]
            rcases hcase with h2 | ⟨c, h2, h3⟩
            · rw [h2]
            · rw [h2]
              exact if_pos h3
          rw [ih1 d hnd.1, hstep]
          exact read_save_logs_self s d e.logs e.fetched_on_date execution_date
        · intro c hc hceff
          have hstep : upgrade_step execution_date eff s d = s := by
            rw [upgrade_step_eq_of_read execution_date eff s d e hre hnot, hc]
            exact if_neg (by omega)
          rw [ih1 d hnd.1, hstep]
          exact hre
      · have hne : d ≠ x := fun h => hnd.1 (h ▸ h1)
        have hre' : read_entry (upgrade_step execution_date eff s x) d = some e := by
          rw [upgrade_step_read_other execution_date eff s x d hne]
          exact hre
        have h2 := ih2 d h1 hdeff e hre'
        rw [max_known_profile_congr d execution_date hprof] at h2
        exact h2
    · intro d hd hdeff
      rcases List.mem_cons.mp hd with h1 | h1
      · subst h1
        have hstep : upgrade_step execution_date eff s d = s := by
          unfold upgrade_step
          rw [if_pos (by omega)]
        rw [List.foldl_cons, ih1 d hnd.1, hstep]
      · have hne : d ≠ x := fun h => hnd.1 (h ▸ h1)
        rw [List.foldl_cons, ih3 d h1 hdeff,
          upgrade_step_read_other execution_date eff s x d hne]

/- ==================================================================
Claim C5: post-run confirmation upgrade.
================================================================== -/

/-- Counterexample to claim C5 as stated: day 5 was fetched this
session, holds non-empty logs, and its confirmation stamp is absent,
while the global maximum non-empty data date is 5 itself.  The claim
("every day fetched during the session whose existing confirmation
stamp is absent or older than the global maximum ... is rewritten with
the upgraded stamp") demands a rewrite, but the code skips every day
at or beyond `effective_max` (`if d == effective_max or d >
effective_max: continue`), so the entry keeps its absent stamp. -/
theorem C5_post_run_upgrade_counterexample :
    get_global_latest_non_empty_date [⟨[w_record], 5, 5, none⟩] 10 = some 5
      ∧ (5 : Int) ∈ [(5 : Int)]
      ∧ read_entry [⟨[w_record], 5, 5, none⟩] 5 = some ⟨[w_record], 5, 5, none⟩
      ∧ (post_run_upgrade_confirmations ⟨[⟨[w_record], 5, 5, none⟩], [5], []⟩ 5 10).store
          = [⟨[w_record], 5, 5, none⟩] := by
  decide

/-- Claim C5, amended (the claim as stated fails, see the
counterexample): let `g` be the global maximum non-empty `data_date`
across the cache (bounded by the execution date), assumed at least the
caller's `final_max_date` (which holds at every call site).  After the
pass, every day fetched this session that lies *strictly before* `g`
and whose stamp is absent or older than `g` is rewritten with stamp
`g` and unchanged logs; a fetched day whose stamp already reaches `g`,
a fetched day at or beyond `g`, and every day not fetched this
session, are left untouched. -/
theorem C5_post_run_upgrade_amended (st : SysState)
    (final_max_date execution_date g : Int)
    (hwf : StoreWF st.store)
    (hnd : st.fetched_this_session.Nodup)
    (hgl : get_global_latest_non_empty_date st.store execution_date = some g)
    (hfm : final_max_date ≤ g) :
    (∀ d ∈ st.fetched_this_session, d < g →
        ∀ e, read_entry st.store d = some e →
          (e.confirmed_complete_up_to_date = none
            ∨ ∃ c, e.confirmed_complete_up_to_date = some c ∧ c < g) →
          read_entry (post_run_upgrade_confirmations st final_max_date execution_date).store d
            = some ⟨e.logs, d, e.fetched_on_date, some g⟩)
      ∧ (∀ d ∈ st.fetched_this_session, d < g →
          ∀ e c, read_entry st.store d = some e →
            e.confirmed_complete_up_to_date = some c → g ≤ c →
            read_entry (post_run_upgrade_confirmations st final_max_date execution_date).store d
              = read_entry st.store d)
      ∧ (∀ d, d ∉ st.fetched_this_session →
          read_entry (post_run_upgrade_confirmations st final_max_date execution_date).store d
            = read_entry st.store d)
      ∧ (∀ d ∈ st.fetched_this_session, g ≤ d →
          read_entry (post_run_upgrade_confirmations st final_max_date execution_date).store d
            = read_entry st.store d) := by
  have heq : (if g > final_max_date then g else final_max_date) = g := by omega
  have hstore : (post_run_upgrade_confirmations st final_max_date execution_date).store
      = st.fetched_this_session.foldl (upgrade_step execution_date g) st.store := by
    unfold post_run_upgrade_confirmations
    simp only [hgl, heq]
  obtain ⟨u1, u2, u3⟩ :=
    upgrade_fold_spec execution_date g st.fetched_this_session st.store hwf hnd
  refine ⟨?_, ?_, ?_, ?_⟩
  · intro d hd hdg e hre hcase
    rw [hstore]
    have h := (u2 d hd hdg e hre).1 hcase
    rw [max_known_eq_global st.store execution_date d g hgl hdg] at h
    exact h
  · intro d hd hdg e c hre hc hgc
    rw [hstore, hre]
    exact (u2 d hd hdg e hre).2 c hc hgc
  · intro d hd
    rw [hstore]
    exact u1 d hd
  · intro d hd hgd
    rw [hstore]
    exact u3 d hd hgd

/-- Witness for the amended C5: day 3 (stamp absent, below the global
maximum 5) is upgraded to stamp 5 with its logs intact, while day 5
(the maximum itself) is untouched. -/
theorem C5_post_run_upgrade_amended_witness :
    read_entry (post_run_upgrade_confirmations w5_state 5 10).store 3
        = some ⟨[w_record], 3, 3, some 5⟩
      ∧ read_entry (post_run_upgrade_confirmations w5_state 5 10).store 5
          = some ⟨[w_record], 5, 5, none⟩ := by
  refine ⟨?_, ?_⟩
  · exact (C5_post_run_upgrade_amended w5_state 5 10 5 (by decide) (by decide)
      (by decide) (by decide)).1 3 (by decide) (by decide)
      ⟨[w_record], 3, 3, none⟩ (by decide) (Or.inl rfl)
  · exact ((C5_post_run_upgrade_amended w5_state 5 10 5 (by decide) (by decide)
      (by decide) (by decide)).2.2.2 5 (by decide) (by decide)).trans (by decide)

/- ==================================================================
Claim C6: gap planning.
================================================================== -/

theorem int_range_pairwise (a b : Int) : (int_range a b).Pairwise (· < ·) := by
  unfold int_range
  rw [List.pairwise_map]
  exact (List.pairwise_lt_range _).imp (fun h => by omega)

/-- Soundness of the gap-grouping loop: every emitted gap is a
nonempty interval of covered days whose two boundary days are not
covered, where a day is covered when it lies in the current
accumulator interval `[gs, ge]` or in the remaining input. -/
theorem group_gaps_go_sound :
    ∀ (rest : List Int) (gs ge : Int), gs ≤ ge →
      rest.Pairwise (· < ·) → (∀ y ∈ rest, ge < y) →
      ∀ p ∈ group_gaps_go gs ge rest,
        gs ≤ p.1 ∧ p.1 ≤ p.2
          ∧ (∀ x, p.1 ≤ x → x ≤ p.2 → (gs ≤ x ∧ x ≤ ge) ∨ x ∈ rest)
          ∧ ¬ ((gs ≤ p.2 + 1 ∧ p.2 + 1 ≤ ge) ∨ p.2 + 1 ∈ rest)
          ∧ (p.1 = gs ∨ ¬ ((gs ≤ p.1 - 1 ∧ p.1 - 1 ≤ ge) ∨ p.1 - 1 ∈ rest)) := by
  intro rest
  induction rest with
  | nil =>
    intro gs ge hge _ _ p hp
    simp only [group_gaps_go, List.mem_singleton] at hp
    subst hp
    refine ⟨le_refl _, hge, fun x h1 h2 => Or.inl ⟨h1, h2⟩, ?_, Or.inl rfl⟩
    intro h
    rcases h with ⟨_, h⟩ | h
    · omega
    · simp at h
  | cons d rest ih =>
    intro gs ge hge hpw hy p hp
    rw [List.pairwise_cons] at hpw
    have hd : ge < d := hy d (List.mem_cons_self _ _)
    simp only [group_gaps_go] at hp
    by_cases hext : d = ge + 1
    · rw [if_pos hext] at hp
      have := ih gs d (by omega) hpw.2 (fun y hyy => hpw.1 y hyy) p hp
      obtain ⟨h1, h2, h3, h4, h5⟩ := this
      refine ⟨h1, h2, ?_, ?_, ?_⟩
      · intro x hx1 hx2
        rcases h3 x hx1 hx2 with ⟨ha, hb⟩ | hmem
        · by_cases hxge : x ≤ ge
          · exact Or.inl ⟨ha, hxge⟩
          · have : x = d := by omega
            exact Or.inr (this ▸ List.mem_cons_self _ _)
        · exact Or.inr (List.mem_cons_of_mem _ hmem)
      · intro hcon
        apply h4
        rcases hcon with ⟨ha, hb⟩ | hmem
        · exact Or.inl ⟨ha, by omega⟩
        · rcases List.mem_cons.mp hmem with h | h
          · exact Or.inl ⟨by
              have := h2
              omega, by omega⟩
          · exact Or.inr h
      · rcases h5 with h | h
        · exact Or.inl h
        · right
          intro hcon
          apply h
          rcases hcon with ⟨ha, hb⟩ | hmem
          · exact Or.inl ⟨ha, by omega⟩
          · rcases List.mem_cons.mp hmem with h7 | h7
            · exact Or.inl ⟨by omega, by omega⟩
            · exact Or.inr h7
    · rw [if_neg hext] at hp
      have hd2 : ge + 2 ≤ d := by omega
      rcases List.mem_cons.mp hp with h | h
      · subst h
        refine ⟨le_refl _, hge, fun x h1 h2 => Or.inl ⟨h1, h2⟩, ?_, Or.inl rfl⟩
        intro hcon
        rcases hcon with ⟨_, hb⟩ | hmem
        · omega
        · rcases List.mem_cons.mp hmem with h7 | h7
          · omega
          · have := hpw.1 _ h7
            omega
      · have := ih d d (le_refl _) hpw.2 (fun y hyy => hpw.1 y hyy) p h
        obtain ⟨h1, h2, h3, h4, h5⟩ := this
        refine ⟨by omega, h2, ?_, ?_, ?_⟩
        · intro x hx1 hx2
          rcases h3 x hx1 hx2 with ⟨ha, hb⟩ | hmem
          · have : x = d := by omega
            exact Or.inr (this ▸ List.mem_cons_self _ _)
          · exact Or.inr (List.mem_cons_of_mem _ hmem)
        · intro hcon
          apply h4
          rcases hcon with ⟨ha, hb⟩ | hmem
          · omega
          · rcases List.mem_cons.mp hmem with h7 | h7
            · omega
            · exact Or.inr h7
        · right
          intro hcon
          rcases h5 with he | hno
          · rcases hcon with ⟨ha, hb⟩ | hmem
            · omega
            · rcases List.mem_cons.mp hmem with h7 | h7
              · omega
              · have := hpw.1 _ h7
                omega
          · apply hno
            rcases hcon with ⟨ha, hb⟩ | hmem
            · omega
            · rcases List.mem_cons.mp hmem with h7 | h7
              · exact Or.inl ⟨by omega, by omega⟩
              · exact Or.inr h7

/-- Completeness of the gap-grouping loop: every covered day lies in
some emitted gap. -/
theorem group_gaps_go_complete :
    ∀ (rest : List Int) (gs ge : Int), gs ≤ ge →
      rest.Pairwise (· < ·) → (∀ y ∈ rest, ge < y) →
      ∀ x, ((gs ≤ x ∧ x ≤ ge) ∨ x ∈ rest) →
        ∃ p ∈ group_gaps_go gs ge rest, p.1 ≤ x ∧ x ≤ p.2 := by
  intro rest
  induction rest with
  | nil =>
    intro gs ge _ _ _ x hx
    rcases hx with ⟨h1, h2⟩ | h
    · exact ⟨(gs, ge), by simp [group_gaps_go], h1, h2⟩
    · simp at h
  | cons d rest ih =>
    intro gs ge hge hpw hy x hx
    rw [List.pairwise_cons] at hpw
    have hd : ge < d := hy d (List.mem_cons_self _ _)
    simp only [group_gaps_go]
    by_cases hext : d = ge + 1
    · rw [if_pos hext]
      apply ih gs d (by omega) hpw.2 (fun y hyy => hpw.1 y hyy)
      rcases hx with ⟨h1, h2⟩ | hmem
      · exact Or.inl ⟨h1, by omega⟩
      · rcases List.mem_cons.mp hmem with h | h
        · exact Or.inl ⟨by omega, by omega⟩
        · exact Or.inr h
    · rw [if_neg hext]
      rcases hx with ⟨h1, h2⟩ | hmem
      · exact ⟨(gs, ge), List.mem_cons_self _ _, h1, h2⟩
      · have hsub : ∃ p ∈ group_gaps_go d d rest, p.1 ≤ x ∧ x ≤ p.2 := by
          apply ih d d (le_refl _) hpw.2 (fun y hyy => hpw.1 y hyy)
          rcases List.mem_cons.mp hmem with h | h
          · exact Or.inl ⟨by omega, by omega⟩
          · exact Or.inr h
        obtain ⟨p, hp, hx1, hx2⟩ := hsub
        exact ⟨p, List.mem_cons_of_mem _ hp, hx1, hx2⟩

theorem group_gaps_sound (l : List Int) (hpw : l.Pairwise (· < ·)) :
    ∀ p ∈ group_gaps l,
      p.1 ≤ p.2 ∧ (∀ x, p.1 ≤ x → x ≤ p.2 → x ∈ l)
        ∧ p.2 + 1 ∉ l ∧ p.1 - 1 ∉ l := by
  intro p hp
  cases l with
  | nil => simp [group_gaps] at hp
  | cons a as =>
    rw [List.pairwise_cons] at hpw
    have h := group_gaps_go_sound as a a (le_refl _) hpw.2 hpw.1 p hp
    obtain ⟨h1, h2, h3, h4, h5⟩ := h
    have hcov : ∀ x : Int, ((a ≤ x ∧ x ≤ a) ∨ x ∈ as) ↔ x ∈ a :: as := by
      intro x
      rw [List.mem_cons]
      constructor
      · rintro (⟨ha, hb⟩ | hmem)
        · left; omega
        · right; exact hmem
      · rintro (heq | hmem)
        · left; omega
        · right; exact hmem
    refine ⟨h2, ?_, ?_, ?_⟩
    · intro x hx1 hx2
      exact (hcov x).mp (h3 x hx1 hx2)
    · intro hcon
      exact h4 ((hcov _).mpr hcon)
    · intro hcon
      rcases h5 with he | hno
      · rcases List.mem_cons.mp hcon with h7 | h7
        · omega
        · have := hpw.1 _ h7
          omega
      · exact hno ((hcov _).mpr hcon)

theorem group_gaps_complete (l : List Int) (hpw : l.Pairwise (· < ·)) :
    ∀ x ∈ l, ∃ p ∈ group_gaps l, p.1 ≤ x ∧ x ≤ p.2 := by
  intro x hx
  cases l with
  | nil => simp at hx
  | cons a as =>
    rw [List.pairwise_cons] at hpw
    apply group_gaps_go_complete as a a (le_refl _) hpw.2 hpw.1
    rcases List.mem_cons.mp hx with h | h
    · exact Or.inl ⟨by omega, by omega⟩
    · exact Or.inr h

theorem plan_hybrid_fetch_eq (s : Store) (start eend execution_date : Int) :
    plan_hybrid_fetch s start eend execution_date
      = (group_gaps (((int_range start eend).filter (fun d => decide (d ≤ execution_date))).filter
            (needs_remote s execution_date))).map
          (fun g => (g.1, g.2,
            if g.2 - g.1 + 1 ≥ 3
                ∨ (eend - start + 1 > 0 ∧ 5 * (g.2 - g.1 + 1) ≥ 2 * (eend - start + 1)) then
              GapStrategy.bulk
            else GapStrategy.daily)) := by
  unfold plan_hybrid_fetch
  by_cases h : (((int_range start eend).filter (fun d => decide (d ≤ execution_date))).filter
      (needs_remote s execution_date)) = []
  · rw [h]
    simp [group_gaps]
  · simp only [if_neg h]

/-- Claim C6 (confirmed): the hybrid planner marks a day of the range
(at or before the execution date) as needing remote refresh exactly
when it is the execution date, uncached, or carries a stamp that is
absent or not strictly beyond the day; consecutive needs-remote days
are collapsed into maximal contiguous gaps; and a gap receives the
bulk strategy exactly when its length is at least
`HYBRID_BULK_MIN_DAYS` (3) or its length over the planned range length
is at least `HYBRID_BULK_RATIO` (0.4, embedded exactly as `5 * gap ≥
2 * total`). -/
theorem C6_gap_planning (s : Store) (start eend execution_date : Int) :
    (∀ d : Int, needs_remote s execution_date d = true
        ↔ (d = execution_date ∨ read_entry s d = none
            ∨ ∃ e, read_entry s d = some e
                ∧ (e.confirmed_complete_up_to_date = none
                    ∨ ∃ c, e.confirmed_complete_up_to_date = some c ∧ c ≤ d)))
      ∧ (∀ d : Int,
          (∃ g ∈ plan_hybrid_fetch s start eend execution_date, g.1 ≤ d ∧ d ≤ g.2.1)
            ↔ (start ≤ d ∧ d ≤ eend ∧ d ≤ execution_date
                ∧ needs_remote s execution_date d = true))
      ∧ (∀ g ∈ plan_hybrid_fetch s start eend execution_date,
          g.1 ≤ g.2.1
            ∧ (∀ x, g.1 ≤ x → x ≤ g.2.1 →
                start ≤ x ∧ x ≤ eend ∧ x ≤ execution_date
                  ∧ needs_remote s execution_date x = true)
            ∧ ¬ (start ≤ g.2.1 + 1 ∧ g.2.1 + 1 ≤ eend ∧ g.2.1 + 1 ≤ execution_date
                  ∧ needs_remote s execution_date (g.2.1 + 1) = true)
            ∧ ¬ (start ≤ g.1 - 1 ∧ g.1 - 1 ≤ eend ∧ g.1 - 1 ≤ execution_date
                  ∧ needs_remote s execution_date (g.1 - 1) = true))
      ∧ (∀ g ∈ plan_hybrid_fetch s start eend execution_date,
          g.2.2 = GapStrategy.bulk
            ↔ (g.2.1 - g.1 + 1 ≥ 3
                ∨ (eend - start + 1 > 0
                    ∧ 5 * (g.2.1 - g.1 + 1) ≥ 2 * (eend - start + 1)))) := by
  have hpw : (((int_range start eend).filter (fun d => decide (d ≤ execution_date))).filter
      (needs_remote s execution_date)).Pairwise (· < ·) :=
    ((int_range_pairwise start eend).filter _).filter _
  have hmem_api : ∀ d : Int,
      d ∈ ((int_range start eend).filter (fun d => decide (d ≤ execution_date))).filter
          (needs_remote s execution_date)
        ↔ (start ≤ d ∧ d ≤ eend ∧ d ≤ execution_date
            ∧ needs_remote s execution_date d = true) := by
    intro d
    rw [List.mem_filter, List.mem_filter, mem_int_range]
    constructor
    · rintro ⟨⟨⟨h1, h2⟩, h3⟩, h4⟩
      exact ⟨h1, h2, by simpa using h3, h4⟩
    · rintro ⟨h1, h2, h3, h4⟩
      exact ⟨⟨⟨h1, h2⟩, by simpa using h3⟩, h4⟩
  refine ⟨?_, ?_, ?_, ?_⟩
  · intro d
    by_cases hd : d = execution_date
    · constructor
      · intro _
        exact Or.inl hd
      · intro _
        unfold needs_remote
        rw [if_pos (by simp [hd])]
    · have hne : ¬ (d == execution_date) = true := by simp [hd]
      cases hre : read_entry s d with
      | none =>
        have hval : needs_remote s execution_date d = true := by
          unfold needs_remote
          rw [if_neg hne, hre]
        exact iff_of_true hval (Or.inr (Or.inl rfl))
      | some e =>
        have hred : needs_remote s execution_date d
            = (match e.confirmed_complete_up_to_date with
               | none => true
               | some c => decide (c ≤ d)) := by
          unfold needs_remote
          rw [if_neg hne, hre]
        cases hc : e.confirmed_complete_up_to_date with
        | none =>
          have hval : needs_remote s execution_date d = true := by rw [hred, hc]
          exact iff_of_true hval (Or.inr (Or.inr ⟨e, rfl, Or.inl hc⟩))
        | some c =>
          have hval : needs_remote s execution_date d = decide (c ≤ d) := by
            rw [hred, hc]
          by_cases hcd : c ≤ d
          · have hval2 : needs_remote s execution_date d = true := by
              rw [hval]
              simp [hcd]
            exact iff_of_true hval2 (Or.inr (Or.inr ⟨e, rfl, Or.inr ⟨c, hc, hcd⟩⟩))
          · have hfalse : needs_remote s execution_date d = false := by
              rw [hval]
              simp [hcd]
            apply iff_of_false
            · rw [hfalse]
              simp
            · rintro (h | h | ⟨e', he', hcase⟩)
              · exact hd h
              · simp at h
              · rw [Option.some_inj] at he'
                subst he'
                rcases hcase with h | ⟨c', hc', hcd'⟩
                · rw [hc] at h
                  simp at h
                · rw [hc, Option.some_inj] at hc'
                  subst hc'
                  exact hcd hcd' 
  · intro d
    rw [plan_hybrid_fetch_eq]
    constructor
    · rintro ⟨g, hg, hd1, hd2⟩
      rw [List.mem_map] at hg
      obtain ⟨q, hq, rfl⟩ := hg
      have hs := group_gaps_sound _ hpw q hq
      exact (hmem_api d).mp (hs.2.1 d hd1 hd2)
    · intro hcond
      obtain ⟨q, hq, hx1, hx2⟩ :=
        group_gaps_complete _ hpw d ((hmem_api d).mpr hcond)
      refine ⟨(q.1, q.2,
        if q.2 - q.1 + 1 ≥ 3
            ∨ (eend - start + 1 > 0 ∧ 5 * (q.2 - q.1 + 1) ≥ 2 * (eend - start + 1)) then
          GapStrategy.bulk
        else GapStrategy.daily), ?_, hx1, hx2⟩
      rw [List.mem_map]
      exact ⟨q, hq, rfl⟩
  · intro g hg
    rw [plan_hybrid_fetch_eq] at hg
    rw [List.mem_map] at hg
    obtain ⟨q, hq, rfl⟩ := hg
    have hs := group_gaps_sound _ hpw q hq
    refine ⟨hs.1, ?_, ?_, ?_⟩
    · intro x hx1 hx2
      exact (hmem_api x).mp (hs.2.1 x hx1 hx2)
    · intro hcon
      exact hs.2.2.1 ((hmem_api _).mpr hcon)
    · intro hcon
      exact hs.2.2.2 ((hmem_api _).mpr hcon)
  · intro g hg
    rw [plan_hybrid_fetch_eq] at hg
    rw [List.mem_map] at hg
    obtain ⟨q, hq, rfl⟩ := hg
    by_cases hcond : q.2 - q.1 + 1 ≥ 3
        ∨ (eend - start + 1 > 0 ∧ 5 * (q.2 - q.1 + 1) ≥ 2 * (eend - start + 1))
    · simp only [if_pos hcond]
      simpa using hcond
    · simp only [if_neg hcond]
      constructor
      · intro h
        exact absurd h (by simp)
      · intro h
        exact absurd h hcond

/-- Witness for C6: with trusted days 11-12 inside the range 10-15
(execution date 20), day 14 lies in the planned bulk gap 13-15 and
needs remote refresh. -/
theorem C6_gap_planning_witness :
    (10 : Int) ≤ 14 ∧ (14 : Int) ≤ 15 ∧ (14 : Int) ≤ 20
      ∧ needs_remote w6_store 20 14 = true :=
  ((C6_gap_planning w6_store 10 15 20).2.1 14).mp
    ⟨(13, 15, GapStrategy.bulk), by decide, by decide, by decide⟩

theorem lookup_none_of_not_any {m : List (Int × List Record)} {d : Int}
    (h : m.any (fun p => p.1 == d) = false) : lookup_day m d = [] := by
  induction m with
  | nil => rfl
  | cons p rest ih =>
    simp only [List.any_cons, Bool.or_eq_false_iff] at h
    have hb : ¬ (p.1 == d) = true := by rw [h.1]; exact Bool.false_ne_true
    simp only [lookup_day, if_neg hb]
    exact ih h.2

theorem lookup_append (m t : List (Int × List Record)) (d : Int) :
    lookup_day (m ++ t) d
      = if m.any (fun p => p.1 == d) then lookup_day m d else lookup_day t d := by
  induction m with
  | nil => simp [lookup_day]
  | cons p rest ih =>
    rw [List.cons_append]
    by_cases hp : p.1 = d
    · simp [lookup_day, hp]
    · have hb : (p.1 == d) = false := by simp [hp]
      simp only [lookup_day, hb, Bool.false_eq_true, if_false, List.any_cons, Bool.false_or]
      exact ih

theorem lookup_map_bucket_self (m : List (Int × List Record)) (d0 : Int) (r : Record)
    (hany : m.any (fun p => p.1 == d0) = true) :
    lookup_day (m.map (fun p => if p.1 == d0 then (p.1, p.2 ++ [r]) else p)) d0
      = lookup_day m d0 ++ [r] := by
  induction m with
  | nil => simp at hany
  | cons p rest ih =>
    simp only [List.any_cons, Bool.or_eq_true] at hany
    by_cases hp : p.1 = d0
    · have hrepl : (if p.1 == d0 then (p.1, p.2 ++ [r]) else p) = (p.1, p.2 ++ [r]) := by
        simp [hp]
      simp only [List.map_cons, hrepl, lookup_day]
      rw [if_pos (by simp [hp]), if_pos (by simp [hp])]
    · have hrepl : (if p.1 == d0 then (p.1, p.2 ++ [r]) else p) = p := by
        simp [hp]
      simp only [List.map_cons, hrepl, lookup_day]
      rw [if_neg (by simp [hp]), if_neg (by simp [hp])]
      rcases hany with h | h
      · exact absurd (by simpa using h) hp
      · exact ih h

theorem lookup_map_bucket_other (m : List (Int × List Record)) (d0 : Int) (r : Record)
    (d : Int) (hd : d ≠ d0) :
    lookup_day (m.map (fun p => if p.1 == d0 then (p.1, p.2 ++ [r]) else p)) d
      = lookup_day m d := by
  induction m with
  | nil => rfl
  | cons p rest ih =>
    by_cases hp : p.1 = d0
    · have hrepl : (if p.1 == d0 then (p.1, p.2 ++ [r]) else p) = (p.1, p.2 ++ [r]) := by
        simp [hp]
      have hpd : ¬ (p.1 == d) = true := by simp [hp]; omega
      simp only [List.map_cons, hrepl, lookup_day]
      rw [if_neg hpd, if_neg hpd]
      exact ih
    · have hrepl : (if p.1 == d0 then (p.1, p.2 ++ [r]) else p) = p := by
        simp [hp]
      simp only [List.map_cons, hrepl, lookup_day]
      by_cases hpd : p.1 = d
      · rw [if_pos (by simp [hpd]), if_pos (by simp [hpd])]
      · rw [if_neg (by simp [hpd]), if_neg (by simp [hpd])]
        exact ih

theorem lookup_append_day (m : List (Int × List Record)) (d0 : Int) (r : Record)
    (d : Int) :
    lookup_day (append_day m d0 r) d
      = if d = d0 then lookup_day m d ++ [r] else lookup_day m d := by
  unfold append_day
  split
  · rename_i hany
    by_cases hd : d = d0
    · subst hd
      rw [if_pos rfl]
      exact lookup_map_bucket_self m d r hany
    · rw [if_neg hd]
      exact lookup_map_bucket_other m d0 r d hd
  · rename_i hany
    rw [Bool.not_eq_true] at hany
    rw [lookup_append]
    by_cases hd : d = d0
    · subst hd
      rw [if_neg (by rw [hany]; exact Bool.false_ne_true), if_pos rfl,
        lookup_none_of_not_any hany]
      simp [lookup_day]
    · rw [if_neg hd]
      by_cases hany2 : m.any (fun p => p.1 == d) = true
      · rw [if_pos hany2]
      · rw [if_neg hany2]
        rw [Bool.not_eq_true] at hany2
        rw [lookup_none_of_not_any hany2]
        have hb : ¬ (((d0, [r]) : Int × List Record).1 == d) = true := by
          simp
          omega
        simp only [lookup_day, if_neg hb]

/-- Witness for C10: the remote holds three records for the probe day,
the stored entry holds exactly one. -/
theorem C10_probe_truncation_witness :
    ((perform_latest_data_probe w_probe_remote ⟨[], [], []⟩ 9 10).2.store
        = save_logs ([] : Store) 9 [⟨1, none, none, none, none⟩] 10 10)
      ∧ ∃ e, read_entry (perform_latest_data_probe w_probe_remote ⟨[], [], []⟩ 9 10).2.store 9
            = some e
          ∧ e.logs = [⟨1, none, none, none, none⟩] ∧ e.logs.length ≤ 1 :=
  C10_probe_truncation w_probe_remote ⟨[], [], []⟩ 9 10 ⟨1, none, none, none, none⟩
    [⟨2, none, none, none, none⟩, ⟨3, none, none, none, none⟩] rfl

theorem bulk_collect_lookup (start eff : Int) :
    ∀ (l : List Record) (n : Nat) (m : List (Int × List Record)) (d : Int),
      lookup_day (bulk_collect none start eff l n m) d
        = lookup_day m d ++ l.filter (fun r => bulk_assign start eff r == some d) := by
  intro l
  induction l with
  | nil => intro n m d; simp [bulk_collect]
  | cons r rest ih =>
    intro n m d
    simp only [List.filter_cons]
    cases hds : bulk_date_str r with
    | none =>
      have hstep : bulk_collect none start eff (r :: rest) n m
          = bulk_collect none start eff rest n m := by
        simp only [bulk_collect, hds]
      have hpred : (bulk_assign start eff r == some d) = false := by
        simp only [bulk_assign, hds]
        rfl
      rw [hpred]
      simp only [Bool.false_eq_true, if_false]
      rw [hstep, ih n m d]
    | some dstr =>
      cases hp : parse10 (take10 dstr) with
      | none =>
        have hstep : bulk_collect none start eff (r :: rest) n m
            = bulk_collect none start eff rest n m := by
          simp only [bulk_collect, hds, hp]
        have hpred : (bulk_assign start eff r == some d) = false := by
          simp only [bulk_assign, hds, hp]
          rfl
        rw [hpred]
        simp only [Bool.false_eq_true, if_false]
        rw [hstep, ih n m d]
      | some d0 =>
        by_cases hr : d0 < start ∨ d0 > eff
        · have hstep : bulk_collect none start eff (r :: rest) n m
              = bulk_collect none start eff rest n m := by
            simp only [bulk_collect, hds, hp, if_pos hr]
          have hpred : (bulk_assign start eff r == some d) = false := by
            simp only [bulk_assign, hds, hp, if_pos hr]
            rfl
          rw [hpred]
          simp only [Bool.false_eq_true, if_false]
          rw [hstep, ih n m d]
        · have hstep : bulk_collect none start eff (r :: rest) n m
              = bulk_collect none start eff rest (n + 1) (append_day m d0 r) := by
            simp only [bulk_collect, hds, hp, if_neg hr]
          have hassign : bulk_assign start eff r = some d0 := by
            simp only [bulk_assign, hds, hp, if_neg hr]
          rw [hstep, ih (n + 1) (append_day m d0 r) d, lookup_append_day, hassign]
          by_cases hd : d = d0
          · subst hd
            rw [if_pos rfl]
            simp [List.append_assoc]
          · have hb : ((some d0 : Option Int) == some d) = false := by
              simp only [beq_eq_false_iff_ne, ne_eq, Option.some.injEq]
              omega
            rw [if_neg hd, hb]
            simp only [Bool.false_eq_true, if_false]

theorem bulk_m_lookup (start eff : Int) (records : List Record) (d : Int) :
    lookup_day (bulk_m start eff records) d
      = records.filter (fun r => bulk_assign start eff r == some d) := by
  unfold bulk_m
  rw [bulk_collect_lookup]
  rfl

theorem mem_add_fetched {l : List Int} {d x : Int} (h : x ∈ add_fetched l d) :
    x ∈ l ∨ x = d := by
  unfold add_fetched at h
  by_cases hd : d ∈ l
  · rw [if_pos hd] at h
    exact Or.inl h
  · rw [if_neg hd] at h
    rcases List.mem_append.mp h with h1 | h1
    · exact Or.inl h1
    · exact Or.inr (List.mem_singleton.mp h1)

theorem bulk_fold_read_not_mem (m : List (Int × List Record)) (execution_date : Int) :
    ∀ (l : List Int) (st : SysState) (d : Int), d ∉ l →
      read_entry ((l.foldl (bulk_write_step m execution_date) st).store) d
        = read_entry st.store d := by
  intro l
  induction l with
  | nil => intro st d _; rfl
  | cons a rest ih =>
    intro st d hd
    have hda : d ≠ a := fun hc => hd (by rw [hc]; exact List.mem_cons_self a rest)
    rw [List.foldl_cons, ih _ d (fun hc => hd (List.mem_cons_of_mem a hc))]
    unfold bulk_write_step
    split
    · rfl
    · exact read_save_logs_other st.store a (lookup_day m a) execution_date
        execution_date d hda

theorem bulk_fold_read_mem (m : List (Int × List Record)) (execution_date : Int)
    (l : List Int) (st : SysState) (d : Int) (hnd : l.Nodup) (hmem : d ∈ l)
    (hle : ¬ d > execution_date) :
    ∃ stamp,
      read_entry ((l.foldl (bulk_write_step m execution_date) st).store) d
        = some ⟨lookup_day m d, d, execution_date, stamp⟩ := by
  obtain ⟨l₁, l₂, rfl⟩ := List.append_of_mem hmem
  have hd2 : d ∉ l₂ := by
    rw [List.nodup_append] at hnd
    exact (List.nodup_cons.mp hnd.2.1).1
  rw [List.foldl_append, List.foldl_cons]
  have hstep : (bulk_write_step m execution_date
        (l₁.foldl (bulk_write_step m execution_date) st) d).store
      = save_logs (l₁.foldl (bulk_write_step m execution_date) st).store d
          (lookup_day m d) execution_date execution_date := by
    unfold bulk_write_step
    rw [if_neg hle]
  rw [bulk_fold_read_not_mem m execution_date l₂ _ d hd2, hstep, read_save_logs_self]
  exact ⟨_, rfl⟩

theorem bulk_fold_fetched (m : List (Int × List Record)) (execution_date : Int) :
    ∀ (l : List Int) (st : SysState) (x : Int),
      x ∈ (l.foldl (bulk_write_step m execution_date) st).fetched_this_session →
        x ∈ st.fetched_this_session ∨ x ∈ l := by
  intro l
  induction l with
  | nil => intro st x h; exact Or.inl h
  | cons a rest ih =>
    intro st x h
    rw [List.foldl_cons] at h
    rcases ih _ x h with h1 | h1
    · unfold bulk_write_step at h1
      by_cases hgt : a > execution_date
      · rw [if_pos hgt] at h1
        exact Or.inl h1
      · rw [if_neg hgt] at h1
        rcases mem_add_fetched h1 with h2 | h2
        · exact Or.inl h2
        · exact Or.inr (by rw [h2]; exact List.mem_cons_self a rest)
    · exact Or.inr (List.mem_cons_of_mem a h1)

theorem bulk_cache_writes_read_mem (st : SysState) (m : List (Int × List Record))
    (start eff execution_date : Int) (d : Int)
    (h1 : start ≤ d) (h2 : d ≤ eff) (h3 : d ≤ execution_date) :
    ∃ e, read_entry (bulk_cache_writes st m start eff execution_date).store d = some e
      ∧ e.logs = lookup_day m d := by
  unfold bulk_cache_writes
  obtain ⟨stamp, hr⟩ := bulk_fold_read_mem m execution_date (int_range start eff) st d
    (List.Pairwise.imp (fun h => ne_of_lt h) (int_range_pairwise start eff))
    (mem_int_range.mpr ⟨h1, h2⟩) (by omega)
  exact ⟨_, hr, rfl⟩

theorem bulk_cache_writes_read_gt (st : SysState) (m : List (Int × List Record))
    (start eff execution_date : Int) (d : Int) (h : eff < d) :
    read_entry (bulk_cache_writes st m start eff execution_date).store d
      = read_entry st.store d := by
  unfold bulk_cache_writes
  exact bulk_fold_read_not_mem m execution_date (int_range start eff) st d
    (fun hc => absurd (mem_int_range.mp hc).2 (by omega))

theorem bulk_cache_writes_fetched (st : SysState) (m : List (Int × List Record))
    (start eff execution_date : Int) (x : Int)
    (h : x ∈ (bulk_cache_writes st m start eff execution_date).fetched_this_session) :
    x ∈ st.fetched_this_session ∨ (start ≤ x ∧ x ≤ eff) := by
  unfold bulk_cache_writes at h
  rcases bulk_fold_fetched m execution_date (int_range start eff) st x h with h1 | h1
  · exact Or.inl h1
  · exact Or.inr (mem_int_range.mp h1)

theorem upgrade_step_read_logs (execution_date eff : Int) (s : Store) (d d' : Int) :
    (read_entry (upgrade_step execution_date eff s d) d').map CacheEntry.logs
      = (read_entry s d').map CacheEntry.logs := by
  by_cases hd : d' = d
  · subst hd
    unfold upgrade_step
    split
    · rfl
    · split
      · rfl
      · rename_i e heq
        split
        · rw [read_save_logs_self, heq]
          rfl
        · split
          · rw [read_save_logs_self, heq]
            rfl
          · rfl
  · rw [upgrade_step_read_other execution_date eff s d d' hd]

theorem upgrade_fold_read_logs (execution_date eff : Int) :
    ∀ (l : List Int) (s : Store) (d' : Int),
      (read_entry (l.foldl (upgrade_step execution_date eff) s) d').map CacheEntry.logs
        = (read_entry s d').map CacheEntry.logs := by
  intro l
  induction l with
  | nil => intro s d'; rfl
  | cons a rest ih =>
    intro s d'
    rw [List.foldl_cons, ih, upgrade_step_read_logs]

theorem upgrade_fold_read_of_not_mem (execution_date eff : Int) :
    ∀ (l : List Int) (s : Store) (d' : Int), d' ∉ l →
      read_entry (l.foldl (upgrade_step execution_date eff) s) d' = read_entry s d' := by
  intro l
  induction l with
  | nil => intro s d' _; rfl
  | cons a rest ih =>
    intro s d' hd
    rw [List.foldl_cons, ih _ d' (fun hc => hd (List.mem_cons_of_mem a hc)),
      upgrade_step_read_other execution_date eff s a d'
        (fun hc => hd (by rw [hc]; exact List.mem_cons_self a rest))]

theorem post_run_read_logs (st : SysState) (final_max execution_date d' : Int) :
    (read_entry (post_run_upgrade_confirmations st final_max execution_date).store
        d').map CacheEntry.logs
      = (read_entry st.store d').map CacheEntry.logs := by
  simp only [post_run_upgrade_confirmations]
  exact upgrade_fold_read_logs execution_date _ st.fetched_this_session st.store d'

theorem post_run_read_of_not_fetched (st : SysState) (final_max execution_date d' : Int)
    (h : d' ∉ st.fetched_this_session) :
    read_entry (post_run_upgrade_confirmations st final_max execution_date).store d'
      = read_entry st.store d' := by
  simp only [post_run_upgrade_confirmations]
  exact upgrade_fold_read_of_not_mem execution_date _ st.fetched_this_session st.store d' h

theorem post_run_read_logs_entry (st : SysState) (final_max execution_date d : Int)
    (e0 : CacheEntry) (h : read_entry st.store d = some e0) :
    ∃ e, read_entry (post_run_upgrade_confirmations st final_max execution_date).store d
        = some e
      ∧ e.logs = e0.logs := by
  have hmap := post_run_read_logs st final_max execution_date d
  rw [h] at hmap
  cases hr : read_entry (post_run_upgrade_confirmations st final_max execution_date).store
      d with
  | none =>
    rw [hr] at hmap
    exact absurd hmap (by simp)
  | some e =>
    rw [hr] at hmap
    simp only [Option.map_some'] at hmap
    exact ⟨e, rfl, Option.some.inj hmap⟩

theorem bulk_final_read_range (st : SysState) (execution_date start eend : Int)
    (records : List Record) (d : Int) (h1 : start ≤ d)
    (h2 : d ≤ min eend execution_date) :
    ∃ e, read_entry (bulk_final st execution_date start eend records).store d = some e
      ∧ e.logs = records.filter
          (fun r => bulk_assign start (min eend execution_date) r == some d) := by
  obtain ⟨e0, hr0, hl0⟩ := bulk_cache_writes_read_mem
    { st with requests := st.requests ++ [Query.rangeQ start (min eend execution_date)] }
    (bulk_m start (min eend execution_date) records) start (min eend execution_date)
    execution_date d h1 h2 (le_trans h2 (min_le_right _ _))
  simp only [bulk_final]
  cases hl : latest_non_empty_day (bulk_m start (min eend execution_date) records) with
  | none =>
    exact ⟨e0, hr0, by rw [hl0, bulk_m_lookup]⟩
  | some dmax =>
    obtain ⟨e, hre, hle⟩ := post_run_read_logs_entry
      (bulk_st2 st execution_date start eend records) dmax execution_date d e0 hr0
    exact ⟨e, hre, by rw [hle, hl0, bulk_m_lookup]⟩

theorem bulk_final_read_gt (st : SysState) (execution_date start eend : Int)
    (records : List Record) (d : Int)
    (hfetched : ∀ x ∈ st.fetched_this_session, x ≤ execution_date)
    (h : execution_date < d) :
    read_entry (bulk_final st execution_date start eend records).store d
      = read_entry st.store d := by
  have heff : min eend execution_date < d := lt_of_le_of_lt (min_le_right _ _) h
  have hb : read_entry (bulk_st2 st execution_date start eend records).store d
      = read_entry st.store d :=
    bulk_cache_writes_read_gt
      { st with requests := st.requests ++ [Query.rangeQ start (min eend execution_date)] }
      (bulk_m start (min eend execution_date) records) start (min eend execution_date)
      execution_date d heff
  have hnf : d ∉ (bulk_st2 st execution_date start eend records).fetched_this_session := by
    intro hc
    rcases bulk_cache_writes_fetched
        { st with requests := st.requests ++ [Query.rangeQ start (min eend execution_date)] }
        (bulk_m start (min eend execution_date) records) start (min eend execution_date)
        execution_date d hc with h1 | h1
    · exact absurd (hfetched d h1) (by omega)
    · omega
  simp only [bulk_final]
  cases hl : latest_non_empty_day (bulk_m start (min eend execution_date) records) with
  | none => exact hb
  | some dmax =>
    exact (post_run_read_of_not_fetched (bulk_st2 st execution_date start eend records)
      dmax execution_date d hnf).trans hb

theorem bulk_stream_range_run (remote : Remote) (st : SysState)
    (execution_date start eend : Int) (descending : Bool) (records : List Record)
    (hse : start ≤ execution_date)
    (hq : remote.rangeQuery start (min eend execution_date) = some records) :
    Option.map Prod.snd
        (bulk_stream_range remote st execution_date start eend descending none)
      = some (bulk_final st execution_date start eend records) := by
  unfold bulk_stream_range
  rw [if_neg (by omega : ¬ start > execution_date)]
  simp only [hq]
  rfl

set_option linter.unusedVariables false in
/-- Claim C7 (confirmed): for a bulk range stream with
`start ≤ execution_date` whose range query succeeds, the returned
records are partitioned into per-day buckets by the first 10
characters of their embedded date/timestamp field, parsed as
`strptime(dstr[:10], "%Y-%m-%d")` (`%Y` exactly four digits, `%d`
also accepting a space-padded day); records with a missing or
unparseable date, or an out-of-range day, are dropped —
`bulk_assign`.  A cache entry is written for every day from `start`
through `min(end, execution_date)` inclusive holding exactly its
bucket (empty buckets included), and no day beyond the execution date
is written (its cached state is unchanged).  `hascii` confines the
inspected date prefixes to ASCII, the alphabet on which the
embedding's digit class and `strptime`'s `\d` coincide. -/
theorem C7_bulk_caching (remote : Remote) (st : SysState)
    (execution_date start eend : Int) (descending : Bool)
    (records : List Record) {out : List Record} {st' : SysState}
    (hse : start ≤ execution_date)
    (hq : remote.rangeQuery start (min eend execution_date) = some records)
    (hfetched : ∀ x ∈ st.fetched_this_session, x ≤ execution_date)
    (hascii : ∀ r ∈ records, ∀ c ∈ (take10 ((bulk_date_str r).getD "")).data,
      c.toNat < 128)
    (hrun : bulk_stream_range remote st execution_date start eend descending none
        = some (out, st')) :
    (∀ d, start ≤ d → d ≤ min eend execution_date →
        ∃ e, read_entry st'.store d = some e
          ∧ e.logs = records.filter
              (fun r => bulk_assign start (min eend execution_date) r == some d))
      ∧ ∀ d, execution_date < d → read_entry st'.store d = read_entry st.store d := by
  have hsnd := bulk_stream_range_run remote st execution_date start eend descending
    records hse hq
  rw [hrun] at hsnd
  simp only [Option.map_some'] at hsnd
  have hst : st' = bulk_final st execution_date start eend records :=
    Option.some.inj hsnd
  subst hst
  constructor
  · intro d h1 h2
    exact bulk_final_read_range st execution_date start eend records d h1 h2
  · intro d h
    exact bulk_final_read_gt st execution_date start eend records d hfetched h

/-- Witness for C7: running the bulk streamer over `[0, 3]` at
execution date 2 against `w7_remote` leaves day 1 holding exactly the
one parseable record and leaves day 5 (beyond the execution date)
untouched. -/
theorem C7_bulk_caching_witness :
    (∃ e, read_entry (bulk_final ⟨[], [], []⟩ 2 0 3 w7_recs).store 1 = some e
        ∧ e.logs = w7_recs.filter (fun r => bulk_assign 0 (min 3 2) r == some 1))
      ∧ read_entry (bulk_final ⟨[], [], []⟩ 2 0 3 w7_recs).store 5
          = read_entry ((⟨[], [], []⟩ : SysState)).store 5 :=
  ⟨(C7_bulk_caching w7_remote ⟨[], [], []⟩ 2 0 3 false w7_recs (by decide) rfl
      (fun x hx => absurd hx (List.not_mem_nil x)) (by decide) rfl).1 1 (by decide)
      (by decide),
   (C7_bulk_caching w7_remote ⟨[], [], []⟩ 2 0 3 false w7_recs (by decide) rfl
      (fun x hx => absurd hx (List.not_mem_nil x)) (by decide) rfl).2 5 (by decide)⟩

/- ==================================================================
C9 — strategy equivalence: shared list infrastructure.
================================================================== -/

theorem int_range_cons {a b : Int} (h : a ≤ b) :
    int_range a b = a :: int_range (a + 1) b := by
  unfold int_range
  have hn : (b - a + 1).toNat = (b - (a + 1) + 1).toNat + 1 := by omega
  rw [hn, List.range_succ_eq_map, List.map_cons, List.map_map]
  have hfun : ((fun (i : Nat) => a + (i : Int)) ∘ Nat.succ)
      = (fun (i : Nat) => a + 1 + (i : Int)) := by
    funext i
    simp only [Function.comp]
    push_cast
    ring
  rw [hfun]
  simp

theorem range_filter_le (a c : Int) :
    ∀ (n : Nat), (List.range n).filter (fun (i : Nat) => decide (a + (i : Int) ≤ c))
      = List.range (min n (c - a + 1).toNat) := by
  intro n
  induction n with
  | zero => simp
  | succ n ih =>
    rw [List.range_succ, List.filter_append, ih]
    by_cases h : a + (n : Int) ≤ c
    · have h1 : min n (c - a + 1).toNat = n := by omega
      have h2 : min (n + 1) (c - a + 1).toNat = n + 1 := by omega
      rw [h1, h2]
      simp only [List.filter_cons, List.filter_nil, decide_eq_true h, if_true]
      exact (List.range_succ n).symm
    · have h1 : min n (c - a + 1).toNat = (c - a + 1).toNat := by omega
      have h2 : min (n + 1) (c - a + 1).toNat = (c - a + 1).toNat := by omega
      rw [h1, h2]
      simp [h]

theorem int_range_filter_le (a b c : Int) :
    (int_range a b).filter (fun d => decide (d ≤ c)) = int_range a (min b c) := by
  unfold int_range
  rw [List.filter_map]
  have hfun : ((fun d => decide (d ≤ c)) ∘ (fun (i : Nat) => a + (i : Int)))
      = (fun (i : Nat) => decide (a + (i : Int) ≤ c)) := by
    funext i
    simp [Function.comp]
  rw [hfun, range_filter_le]
  have hn : min (b - a + 1).toNat (c - a + 1).toNat = (min b c - a + 1).toNat := by
    omega
  rw [hn]

theorem int_range_nodup (a b : Int) : (int_range a b).Nodup :=
  List.Pairwise.imp (fun h => ne_of_lt h) (int_range_pairwise a b)

theorem sort_int_perm (descending : Bool) (l : List Int) :
    (sort_int descending l).Perm l := by
  unfold sort_int
  split
  · exact List.perm_insertionSort _ l
  · exact List.perm_insertionSort _ l

theorem sort_by_key_perm (descending : Bool) (l : List Record) :
    (sort_by_key descending l).Perm l := by
  unfold sort_by_key
  split
  · exact List.perm_insertionSort _ l
  · exact List.perm_insertionSort _ l

theorem lookup_map_pair (g : Int → List Record) :
    ∀ (L : List Int) (d : Int),
      lookup_day (L.map (fun x => (x, g x))) d = if d ∈ L then g d else [] := by
  intro L
  induction L with
  | nil => intro d; simp [lookup_day]
  | cons a rest ih =>
    intro d
    simp only [List.map_cons, lookup_day]
    by_cases hd : a = d
    · subst hd
      rw [if_pos (by simp), if_pos (List.mem_cons_self a rest)]
    · rw [if_neg (by simp [hd]), ih d]
      by_cases hm : d ∈ rest
      · rw [if_pos hm, if_pos (List.mem_cons_of_mem a hm)]
      · rw [if_neg hm, if_neg (by
          intro hc
          rcases List.mem_cons.mp hc with hc1 | hc1
          · exact hd hc1.symm
          · exact hm hc1)]

theorem filter_cons_mem_perm (f : Record → Int) (d : Int) (L : List Int)
    (hd : d ∉ L) :
    ∀ (S : List Record),
      (S.filter (fun r => decide (f r ∈ d :: L))).Perm
        ((S.filter (fun r => f r == d)) ++ S.filter (fun r => decide (f r ∈ L))) := by
  intro S
  induction S with
  | nil => simp
  | cons r S ih =>
    simp only [List.filter_cons]
    by_cases h1 : f r = d
    · have hc1 : decide (f r ∈ d :: L) = true := by
        simp [h1]
      have hc2 : (f r == d) = true := by simp [h1]
      have hc3 : decide (f r ∈ L) = false := by
        simp only [decide_eq_false_iff_not]
        rw [h1]
        exact hd
      rw [hc1, hc2, hc3]
      simp only [if_true, Bool.false_eq_true, if_false, List.cons_append]
      exact ih.cons r
    · by_cases h2 : f r ∈ L
      · have hc1 : decide (f r ∈ d :: L) = true := by
          simp [List.mem_cons, h2]
        have hc2 : (f r == d) = false := by simp [h1]
        have hc3 : decide (f r ∈ L) = true := by simp [h2]
        rw [hc1, hc2, hc3]
        simp only [if_true, Bool.false_eq_true, if_false]
        exact (ih.cons r).trans List.perm_middle.symm
      · have hc1 : decide (f r ∈ d :: L) = false := by
          simp [List.mem_cons, h1, h2]
        have hc2 : (f r == d) = false := by simp [h1]
        have hc3 : decide (f r ∈ L) = false := by simp [h2]
        rw [hc1, hc2, hc3]
        simp only [Bool.false_eq_true, if_false]
        exact ih

theorem buckets_flatten_perm (S : List Record) (f : Record → Int) :
    ∀ (L : List Int) (g : Int → List Record), L.Nodup →
      (∀ d ∈ L, (g d).Perm (S.filter (fun r => f r == d))) →
      ((L.map g).flatten).Perm (S.filter (fun r => decide (f r ∈ L))) := by
  intro L
  induction L with
  | nil =>
    intro g _ _
    simp
  | cons d L ih =>
    intro g hnd hg
    simp only [List.map_cons, List.flatten_cons]
    have hd : d ∉ L := (List.nodup_cons.mp hnd).1
    refine (List.Perm.append (hg d (List.mem_cons_self d L))
      (ih g (List.nodup_cons.mp hnd).2
        (fun x hx => hg x (List.mem_cons_of_mem d hx)))).trans ?_
    exact (filter_cons_mem_perm f d L hd S).symm

theorem list_max_reverse_range (start eff : Int) (h : start ≤ eff) :
    list_max ((int_range start eff).reverse) 0 = eff := by
  have hne : (int_range start eff).reverse ≠ [] := by
    intro hc
    have h0 : int_range start eff = [] := by
      have h1 := congrArg List.reverse hc
      simpa using h1
    have h2 : eff ∈ int_range start eff := mem_int_range.mpr ⟨h, le_refl eff⟩
    rw [h0] at h2
    exact absurd h2 (List.not_mem_nil eff)
  have h1 := list_max_mem 0 hne
  rw [List.mem_reverse, mem_int_range] at h1
  have h2 : eff ≤ list_max ((int_range start eff).reverse) 0 :=
    le_list_max 0 (List.mem_reverse.mpr (mem_int_range.mpr ⟨h, le_refl eff⟩))
  omega

theorem probe_reads_none (remote : Remote) (st : SysState) (days : List Int)
    (execution_date d : Int) (hst : read_entry st.store d = none)
    (hd : d ≤ list_max days 0) :
    read_entry (perform_completeness_probe remote st days execution_date).store d = none
      ∨ d = execution_date := by
  simp only [perform_completeness_probe]
  by_cases hcl : list_max days 0 + 1 > execution_date
  · rw [if_pos hcl]
    by_cases hde : d = execution_date
    · exact Or.inr hde
    · left
      cases hq : remote.dayQuery execution_date with
      | none => simp only [hq]; exact hst
      | some ls =>
        simp only [hq]
        split
        · rw [read_save_logs_other _ _ _ _ _ d hde]
          exact hst
        · exact hst
  · rw [if_neg hcl]
    left
    have hne : d ≠ list_max days 0 + 1 := by omega
    cases hq : remote.dayQuery (list_max days 0 + 1) with
    | none => simp only [hq]; exact hst
    | some ls =>
      simp only [hq]
      split
      · rw [read_save_logs_other _ _ _ _ _ d hne]
        exact hst
      · exact hst

theorem fetch_day_fresh (remote : Remote) (st : SysState) (execution_date day : Int)
    (g : List Record) (hg : remote.dayQuery day = some g)
    (hle : day ≤ execution_date)
    (hread : read_entry st.store day = none ∨ day = execution_date) :
    fetch_day remote st execution_date day false
      = ((g, if g ≠ [] then some day else none),
        ⟨save_logs st.store day g execution_date execution_date,
         add_fetched st.fetched_this_session day,
         st.requests ++ [Query.dayQ day none]⟩) := by
  have hna : fetch_day_needs_api st.store execution_date day false = true := by
    rcases hread with h | h
    · unfold fetch_day_needs_api
      rw [h]
      rfl
    · subst h
      unfold fetch_day_needs_api
      cases hr : read_entry st.store day with
      | none => rfl
      | some entry => simp
  unfold fetch_day
  rw [if_neg (fun hc => (by omega : ¬ day > execution_date) hc.1), if_pos hna, hg]

theorem daily_fold_out (remote : Remote) (execution_date : Int) (g : Int → List Record)
    (hg : ∀ d, remote.dayQuery d = some (g d)) :
    ∀ (L : List Int) (st : SysState) (acc : List (Int × List Record)),
      L.Nodup → (∀ d ∈ L, d ≤ execution_date) →
      (∀ d ∈ L, read_entry st.store d = none ∨ d = execution_date) →
      (L.foldl
          (fun (acc : List (Int × List Record) × SysState) (day : Int) =>
            if day > execution_date && !false then acc
            else
              (acc.1 ++ [(day,
                  (fetch_day remote acc.2 execution_date day false).1.1)],
                (fetch_day remote acc.2 execution_date day false).2))
          (acc, st)).1
        = acc ++ L.map (fun d => (d, g d)) := by
  intro L
  induction L with
  | nil =>
    intro st acc _ _ _
    simp
  | cons a rest ih =>
    intro st acc hnd hle hrd
    have ha : a ≤ execution_date := hle a (List.mem_cons_self a rest)
    have hcond : (decide (a > execution_date) && !false) = false := by
      simp
      omega
    have hfetch := fetch_day_fresh remote st execution_date a (g a) (hg a) ha
      (hrd a (List.mem_cons_self a rest))
    have hrd2 : ∀ d ∈ rest, read_entry
        ((⟨save_logs st.store a (g a) execution_date execution_date,
          add_fetched st.fetched_this_session a,
          st.requests ++ [Query.dayQ a none]⟩ : SysState)).store d = none
          ∨ d = execution_date := by
      intro d hd
      have hda : d ≠ a := fun hc => (List.nodup_cons.mp hnd).1 (hc ▸ hd)
      rcases hrd d (List.mem_cons_of_mem a hd) with h | h
      · left
        show read_entry (save_logs st.store a (g a) execution_date execution_date) d = none
        rw [read_save_logs_other _ _ _ _ _ d hda]
        exact h
      · exact Or.inr h
    rw [List.foldl_cons]
    simp only [hcond, Bool.false_eq_true, if_false, hfetch]
    rw [ih _ (acc ++ [(a, g a)]) (List.nodup_cons.mp hnd).2
      (fun d hd => hle d (List.mem_cons_of_mem a hd)) hrd2]
    simp

theorem daily_st1_inv (remote : Remote) (L : List Int) (execution_date : Int)
    (cond : Bool) :
    ∀ d ∈ L,
      read_entry ((if cond = true then
          perform_completeness_probe remote ⟨[], [], []⟩ L execution_date
        else ⟨[], [], []⟩) : SysState).store d = none ∨ d = execution_date := by
  intro d hd
  by_cases hc : cond = true
  · rw [if_pos hc]
    exact probe_reads_none remote ⟨[], [], []⟩ L execution_date d rfl (le_list_max 0 hd)
  · rw [if_neg hc]
    exact Or.inl rfl

theorem daily_out_perm (seeded : List Record) (descending : Bool)
    (execution_date start eend : Int) (f : Record → Int)
    (hs1 : start ≤ eend) (hs2 : start ≤ execution_date)
    (hkey : ∀ r ∈ seeded, ∀ q ∈ int_range start (min eend execution_date),
      ((transport_key r == day_key q) = (f r == q))) :
    ((daily_stream_range (mem_remote seeded descending) ⟨[], [], []⟩
        execution_date start eend descending none false).1).Perm
      (seeded.filter
        (fun r => decide (start ≤ f r ∧ f r ≤ min eend execution_date))) := by
  have heffs : start ≤ min eend execution_date := by omega
  have hdays : (int_range start eend).filter
        (fun d => d ≤ execution_date || false)
      = int_range start (min eend execution_date) := by
    have hfun : (fun (d : Int) => (decide (d ≤ execution_date) || false))
        = (fun (d : Int) => decide (d ≤ execution_date)) := by
      funext d
      simp
    rw [hfun, int_range_filter_le]
  simp only [daily_stream_range, hdays]
  set L := (int_range start (min eend execution_date)).reverse with hL
  have hLnd : L.Nodup := List.nodup_reverse.mpr (int_range_nodup _ _)
  have hLle : ∀ d ∈ L, d ≤ execution_date := by
    intro d hd
    rw [hL, List.mem_reverse, mem_int_range] at hd
    omega
  have hM := daily_fold_out (mem_remote seeded descending) execution_date
    (fun d => transport_day_query seeded descending (day_key d)) (fun d => rfl)
    L _ [] hLnd hLle
    (daily_st1_inv (mem_remote seeded descending) L execution_date
      (!false && should_probe_for_completeness [] L execution_date))
  rw [List.nil_append] at hM
  beta_reduce at hM
  rw [hM]
  simp only [take_cap]
  have hfst : ((L.map (fun d =>
      (d, transport_day_query seeded descending (day_key d)))).map Prod.fst) = L := by
    rw [List.map_map]
    have hcomp : (Prod.fst ∘ fun (d : Int) =>
        (d, transport_day_query seeded descending (day_key d))) = id := by
      funext d
      rfl
    rw [hcomp, List.map_id]
  rw [hfst]
  have hnd2 : (sort_int descending L).Nodup :=
    ((sort_int_perm descending L).nodup_iff).mpr hLnd
  have hbuckets : ∀ d ∈ sort_int descending L,
      (lookup_day (L.map (fun d =>
          (d, transport_day_query seeded descending (day_key d)))) d).Perm
        (seeded.filter (fun r => f r == d)) := by
    intro d hd
    have hdL : d ∈ L := (sort_int_perm descending L).mem_iff.mp hd
    rw [lookup_map_pair, if_pos hdL]
    have hdr : d ∈ int_range start (min eend execution_date) := by
      rw [hL] at hdL
      exact List.mem_reverse.mp hdL
    have hfe : seeded.filter (fun r => transport_key r == day_key d)
        = seeded.filter (fun r => f r == d) :=
      List.filter_congr (fun r hr => hkey r hr d hdr)
    simp only [transport_day_query]
    exact (sort_by_key_perm descending _).trans (by rw [hfe])
  refine (buckets_flatten_perm seeded f (sort_int descending L)
    (fun d => lookup_day (L.map (fun d =>
      (d, transport_day_query seeded descending (day_key d)))) d)
    hnd2 hbuckets).trans ?_
  have hfinal : seeded.filter (fun r => decide (f r ∈ sort_int descending L))
      = seeded.filter
          (fun r => decide (start ≤ f r ∧ f r ≤ min eend execution_date)) := by
    refine List.filter_congr (fun r hr => ?_)
    refine decide_eq_decide.mpr ?_
    rw [(sort_int_perm descending L).mem_iff, hL, List.mem_reverse, mem_int_range]
  rw [hfinal]

theorem append_day_keys (m : List (Int × List Record)) (d0 : Int) (r : Record) :
    (append_day m d0 r).map Prod.fst
      = if m.any (fun p => p.1 == d0) then m.map Prod.fst
        else m.map Prod.fst ++ [d0] := by
  unfold append_day
  split
  · rw [List.map_map]
    refine List.map_congr_left (fun p hp => ?_)
    by_cases h : (p.1 == d0) = true
    · simp [Function.comp, h]
    · simp [Function.comp, h]
  · rw [List.map_append]
    rfl

theorem bulk_collect_keys_nodup (start eff : Int) :
    ∀ (l : List Record) (n : Nat) (m : List (Int × List Record)),
      (m.map Prod.fst).Nodup →
      ((bulk_collect none start eff l n m).map Prod.fst).Nodup := by
  intro l
  induction l with
  | nil => intro n m h; exact h
  | cons r rest ih =>
    intro n m h
    cases hds : bulk_date_str r with
    | none =>
      have hstep : bulk_collect none start eff (r :: rest) n m
          = bulk_collect none start eff rest n m := by
        simp only [bulk_collect, hds]
      rw [hstep]
      exact ih n m h
    | some dstr =>
      cases hp : parse10 (take10 dstr) with
      | none =>
        have hstep : bulk_collect none start eff (r :: rest) n m
            = bulk_collect none start eff rest n m := by
          simp only [bulk_collect, hds, hp]
        rw [hstep]
        exact ih n m h
      | some d0 =>
        by_cases hr : d0 < start ∨ d0 > eff
        · have hstep : bulk_collect none start eff (r :: rest) n m
              = bulk_collect none start eff rest n m := by
            simp only [bulk_collect, hds, hp, if_pos hr]
          rw [hstep]
          exact ih n m h
        · have hstep : bulk_collect none start eff (r :: rest) n m
              = bulk_collect none start eff rest (n + 1) (append_day m d0 r) := by
            simp only [bulk_collect, hds, hp, if_neg hr]
          rw [hstep]
          refine ih (n + 1) (append_day m d0 r) ?_
          rw [append_day_keys]
          by_cases hany : m.any (fun p => p.1 == d0) = true
          · rw [if_pos hany]
            exact h
          · rw [if_neg hany]
            rw [List.nodup_append]
            refine ⟨h, List.nodup_singleton d0, ?_⟩
            intro x hx hx2
            rw [List.mem_singleton] at hx2
            subst hx2
            obtain ⟨p, hp, he⟩ := List.mem_map.mp hx
            exact hany (List.any_eq_true.mpr ⟨p, hp, by simp [he]⟩)

theorem bulk_collect_keys_sub (start eff : Int) :
    ∀ (l : List Record) (n : Nat) (m : List (Int × List Record)) (d : Int),
      d ∈ (bulk_collect none start eff l n m).map Prod.fst →
      d ∈ m.map Prod.fst ∨ (start ≤ d ∧ d ≤ eff) := by
  intro l
  induction l with
  | nil => intro n m d h; exact Or.inl h
  | cons r rest ih =>
    intro n m d h
    cases hds : bulk_date_str r with
    | none =>
      have hstep : bulk_collect none start eff (r :: rest) n m
          = bulk_collect none start eff rest n m := by
        simp only [bulk_collect, hds]
      rw [hstep] at h
      exact ih n m d h
    | some dstr =>
      cases hp : parse10 (take10 dstr) with
      | none =>
        have hstep : bulk_collect none start eff (r :: rest) n m
            = bulk_collect none start eff rest n m := by
          simp only [bulk_collect, hds, hp]
        rw [hstep] at h
        exact ih n m d h
      | some d0 =>
        by_cases hr : d0 < start ∨ d0 > eff
        · have hstep : bulk_collect none start eff (r :: rest) n m
              = bulk_collect none start eff rest n m := by
            simp only [bulk_collect, hds, hp, if_pos hr]
          rw [hstep] at h
          exact ih n m d h
        · have hstep : bulk_collect none start eff (r :: rest) n m
              = bulk_collect none start eff rest (n + 1) (append_day m d0 r) := by
            simp only [bulk_collect, hds, hp, if_neg hr]
          rw [hstep] at h
          rcases ih (n + 1) (append_day m d0 r) d h with h1 | h1
          · rw [append_day_keys] at h1
            by_cases hany : m.any (fun p => p.1 == d0) = true
            · rw [if_pos hany] at h1
              exact Or.inl h1
            · rw [if_neg hany] at h1
              rcases List.mem_append.mp h1 with h2 | h2
              · exact Or.inl h2
              · rw [List.mem_singleton] at h2
                subst h2
                right
                omega
          · exact Or.inr h1

theorem lookup_ne_nil_key {m : List (Int × List Record)} {d : Int}
    (h : lookup_day m d ≠ []) : d ∈ m.map Prod.fst := by
  by_contra hc
  apply h
  apply lookup_none_of_not_any
  rw [List.any_eq_false]
  intro p hp hbeq
  refine hc (List.mem_map.mpr ⟨p, hp, ?_⟩)
  simpa using hbeq

theorem bulk_out_perm (seeded : List Record) (descending : Bool)
    (execution_date start eend : Int) (f : Record → Int)
    (hs2 : start ≤ execution_date)
    (hstr : ∀ r ∈ seeded,
      (str_le (day_key start) (transport_key r)
          && str_le (transport_key r) (day_key (min eend execution_date)))
        = decide (start ≤ f r ∧ f r ≤ min eend execution_date))
    (hA : take10 (day_key start ++ " 00:00:00") = day_key start)
    (hB : take10 (day_key (min eend execution_date) ++ " 23:59:59")
        = day_key (min eend execution_date))
    (hdate : ∀ r ∈ seeded, ∃ s, bulk_date_str r = some s
        ∧ parse10 (take10 s) = some (f r)) :
    ∀ outB stB,
      bulk_stream_range (mem_remote seeded descending) ⟨[], [], []⟩
          execution_date start eend descending none = some (outB, stB) →
      outB.Perm (seeded.filter
        (fun r => decide (start ≤ f r ∧ f r ≤ min eend execution_date))) := by
  intro outB stB hrun
  unfold bulk_stream_range at hrun
  rw [if_neg (by omega : ¬ start > execution_date)] at hrun
  have hq : (mem_remote seeded descending).rangeQuery start (min eend execution_date)
      = some (transport_range_query seeded descending
          (day_key start ++ " 00:00:00")
          (day_key (min eend execution_date) ++ " 23:59:59")) := rfl
  simp only [hq] at hrun
  have hpair := Option.some_inj.mp hrun
  injection hpair with hout hst
  subst hout
  set R := transport_range_query seeded descending (day_key start ++ " 00:00:00")
    (day_key (min eend execution_date) ++ " 23:59:59") with hR
  set m := bulk_collect none start (min eend execution_date) R 0 [] with hm
  simp only [take_cap]
  have hRseed : ∀ r ∈ R, r ∈ seeded := by
    intro r hr
    rw [hR] at hr
    unfold transport_range_query at hr
    have h2 := (sort_by_key_perm descending _).mem_iff.mp hr
    exact (List.mem_filter.mp h2).1
  have hRrange : ∀ r ∈ R, start ≤ f r ∧ f r ≤ min eend execution_date := by
    intro r hr
    rw [hR] at hr
    unfold transport_range_query at hr
    have h2 := (sort_by_key_perm descending _).mem_iff.mp hr
    have h3 := (List.mem_filter.mp h2).2
    rw [hA, hB, hstr r (List.mem_filter.mp h2).1] at h3
    exact of_decide_eq_true h3
  have hassign : ∀ r ∈ seeded, bulk_assign start (min eend execution_date) r
      = if start ≤ f r ∧ f r ≤ min eend execution_date then some (f r) else none := by
    intro r hr
    obtain ⟨s, hbs, hps⟩ := hdate r hr
    unfold bulk_assign
    simp only [hbs, hps]
    by_cases hc : start ≤ f r ∧ f r ≤ min eend execution_date
    · rw [if_neg (by omega : ¬ (f r < start ∨ f r > min eend execution_date)), if_pos hc]
    · rw [if_pos (by omega : f r < start ∨ f r > min eend execution_date), if_neg hc]
  have hmnodup : (m.map Prod.fst).Nodup := by
    rw [hm]
    exact bulk_collect_keys_nodup start _ R 0 [] (by simp)
  have hmrange : ∀ d ∈ m.map Prod.fst, start ≤ d ∧ d ≤ min eend execution_date := by
    intro d hd
    rw [hm] at hd
    rcases bulk_collect_keys_sub start _ R 0 [] d hd with h1 | h1
    · simp at h1
    · exact h1
  have hlk : ∀ d, lookup_day m d
      = R.filter (fun r => bulk_assign start (min eend execution_date) r == some d) := by
    intro d
    rw [hm, bulk_collect_lookup]
    rfl
  have hnd2 : (sort_int descending (m.map Prod.fst)).Nodup :=
    ((sort_int_perm descending _).nodup_iff).mpr hmnodup
  have hbuckets : ∀ d ∈ sort_int descending (m.map Prod.fst),
      (lookup_day m d).Perm (R.filter (fun r => f r == d)) := by
    intro d hd
    have hdm : d ∈ m.map Prod.fst := (sort_int_perm descending _).mem_iff.mp hd
    have hdrange := hmrange d hdm
    rw [hlk d]
    have hfe : R.filter (fun r => bulk_assign start (min eend execution_date) r == some d)
        = R.filter (fun r => f r == d) := by
      refine List.filter_congr (fun r hr => ?_)
      rw [hassign r (hRseed r hr)]
      by_cases hc : start ≤ f r ∧ f r ≤ min eend execution_date
      · rw [if_pos hc]
        rfl
      · rw [if_neg hc]
        have hne : f r ≠ d := by
          intro he
          rw [he] at hc
          exact hc hdrange
        have h2 : (f r == d) = false := by
          simp [hne]
        rw [h2]
        rfl
    rw [hfe]
  refine (buckets_flatten_perm R f (sort_int descending (m.map Prod.fst))
    (fun d => lookup_day m d) hnd2 hbuckets).trans ?_
  have hfill : R.filter
      (fun r => decide (f r ∈ sort_int descending (m.map Prod.fst))) = R := by
    rw [List.filter_eq_self]
    intro r hr
    refine decide_eq_true ?_
    rw [(sort_int_perm descending _).mem_iff]
    refine lookup_ne_nil_key (d := f r) (m := m) ?_
    rw [hlk]
    intro hnil
    have hmem : r ∈ R.filter
        (fun r2 => bulk_assign start (min eend execution_date) r2 == some (f r)) := by
      rw [List.mem_filter]
      refine ⟨hr, ?_⟩
      rw [hassign r (hRseed r hr), if_pos (hRrange r hr)]
      simp
    rw [hnil] at hmem
    exact absurd hmem (List.not_mem_nil r)
  rw [hfill, hR]
  unfold transport_range_query
  refine (sort_by_key_perm descending _).trans ?_
  have hfe2 : seeded.filter (fun r =>
      str_le (take10 (day_key start ++ " 00:00:00")) (transport_key r)
        && str_le (transport_key r)
            (take10 (day_key (min eend execution_date) ++ " 23:59:59")))
      = seeded.filter
          (fun r => decide (start ≤ f r ∧ f r ≤ min eend execution_date)) := by
    refine List.filter_congr (fun r hr => ?_)
    rw [hA, hB]
    exact hstr r hr
  rw [hfe2]

theorem hybrid_partition_eq (out : List Record) (gs ge : Int) :
    hybrid_partition out gs ge = out.foldl (hyb_step gs ge) [] := by
  unfold hybrid_partition
  apply List.foldl_ext
  intro m r _
  unfold hyb_step hyb_assign
  cases hds : hybrid_date_str r with
  | none => simp only [hds]
  | some dstr =>
    simp only [hds]
    cases hp : parse10 (take10 dstr) with
    | none => simp only [hp]
    | some d =>
      simp only [hp]
      by_cases hrange : gs ≤ d ∧ d ≤ ge
      · rw [if_pos hrange, if_pos hrange]
      · rw [if_neg hrange, if_neg hrange]

theorem hyb_assign_range {gs ge : Int} {r : Record} {d : Int}
    (h : hyb_assign gs ge r = some d) : gs ≤ d ∧ d ≤ ge := by
  unfold hyb_assign at h
  cases hds : hybrid_date_str r with
  | none =>
    simp only [hds] at h
    exact absurd h (by simp)
  | some dstr =>
    simp only [hds] at h
    cases hp : parse10 (take10 dstr) with
    | none =>
      simp only [hp] at h
      exact absurd h (by simp)
    | some d0 =>
      simp only [hp] at h
      by_cases hrange : gs ≤ d0 ∧ d0 ≤ ge
      · rw [if_pos hrange] at h
        have h2 : d0 = d := Option.some.inj h
        subst h2
        exact hrange
      · rw [if_neg hrange] at h
        exact absurd h (by simp)

theorem hyb_fold_lookup (gs ge : Int) :
    ∀ (l : List Record) (m0 : List (Int × List Record)) (d : Int),
      lookup_day (l.foldl (hyb_step gs ge) m0) d
        = lookup_day m0 d ++ l.filter (fun r => hyb_assign gs ge r == some d) := by
  intro l
  induction l with
  | nil => intro m0 d; simp
  | cons r rest ih =>
    intro m0 d
    rw [List.foldl_cons, List.filter_cons]
    cases ha : hyb_assign gs ge r with
    | none =>
      have hstep : hyb_step gs ge m0 r = m0 := by
        unfold hyb_step
        rw [ha]
      have hpred : (((none : Option Int) == some d)) = false := rfl
      rw [hstep, hpred]
      simp only [Bool.false_eq_true, if_false]
      exact ih m0 d
    | some d0 =>
      have hstep : hyb_step gs ge m0 r = append_day m0 d0 r := by
        unfold hyb_step
        rw [ha]
      rw [hstep, ih (append_day m0 d0 r) d, lookup_append_day]
      by_cases hd : d = d0
      · subst hd
        rw [if_pos rfl]
        simp [List.append_assoc]
      · have hb : ((some d0 : Option Int) == some d) = false := by
          simp only [beq_eq_false_iff_ne, ne_eq, Option.some.injEq]
          omega
        rw [if_neg hd, hb]
        simp only [Bool.false_eq_true, if_false]

theorem hyb_fold_keys_nodup (gs ge : Int) :
    ∀ (l : List Record) (m0 : List (Int × List Record)),
      (m0.map Prod.fst).Nodup →
      ((l.foldl (hyb_step gs ge) m0).map Prod.fst).Nodup := by
  intro l
  induction l with
  | nil => intro m0 h; exact h
  | cons r rest ih =>
    intro m0 h
    rw [List.foldl_cons]
    refine ih (hyb_step gs ge m0 r) ?_
    unfold hyb_step
    cases ha : hyb_assign gs ge r with
    | none => exact h
    | some d0 =>
      rw [append_day_keys]
      by_cases hany : m0.any (fun p => p.1 == d0) = true
      · rw [if_pos hany]
        exact h
      · rw [if_neg hany]
        rw [List.nodup_append]
        refine ⟨h, List.nodup_singleton d0, ?_⟩
        intro x hx hx2
        rw [List.mem_singleton] at hx2
        subst hx2
        obtain ⟨p, hp, he⟩ := List.mem_map.mp hx
        exact hany (List.any_eq_true.mpr ⟨p, hp, by simp [he]⟩)

theorem hyb_fold_keys_sub (gs ge : Int) :
    ∀ (l : List Record) (m0 : List (Int × List Record)) (d : Int),
      d ∈ (l.foldl (hyb_step gs ge) m0).map Prod.fst →
      d ∈ m0.map Prod.fst ∨ (gs ≤ d ∧ d ≤ ge) := by
  intro l
  induction l with
  | nil => intro m0 d h; exact Or.inl h
  | cons r rest ih =>
    intro m0 d h
    rw [List.foldl_cons] at h
    rcases ih (hyb_step gs ge m0 r) d h with h1 | h1
    · unfold hyb_step at h1
      cases ha : hyb_assign gs ge r with
      | none =>
        rw [ha] at h1
        exact Or.inl h1
      | some d0 =>
        rw [ha, append_day_keys] at h1
        by_cases hany : m0.any (fun p => p.1 == d0) = true
        · rw [if_pos hany] at h1
          exact Or.inl h1
        · rw [if_neg hany] at h1
          rcases List.mem_append.mp h1 with h2 | h2
          · exact Or.inl h2
          · rw [List.mem_singleton] at h2
            subst h2
            exact Or.inr (hyb_assign_range ha)
    · exact Or.inr h1

theorem any_key_eq_false {m : List (Int × List Record)} {d : Int}
    (h : d ∉ m.map Prod.fst) : m.any (fun p => p.1 == d) = false := by
  rw [List.any_eq_false]
  intro p hp hbeq
  exact h (List.mem_map.mpr ⟨p, hp, by simpa using hbeq⟩)

theorem assoc_set_fold :
    ∀ (l acc : List (Int × List Record)),
      (l.map Prod.fst).Nodup →
      (∀ d ∈ l.map Prod.fst, d ∉ acc.map Prod.fst) →
      l.foldl (fun m p => assoc_set m p.1 p.2) acc = acc ++ l := by
  intro l
  induction l with
  | nil => intro acc _ _; simp
  | cons p rest ih =>
    intro acc hnd hdisj
    rw [List.foldl_cons]
    have hp1 : p.1 ∉ acc.map Prod.fst :=
      hdisj p.1 (List.mem_map.mpr ⟨p, List.mem_cons_self p rest, rfl⟩)
    have hstep : assoc_set acc p.1 p.2 = acc ++ [p] := by
      unfold assoc_set
      rw [any_key_eq_false hp1]
      simp only [Bool.false_eq_true, if_false]
    have hnd2 : (rest.map Prod.fst).Nodup := by
      rw [List.map_cons] at hnd
      exact (List.nodup_cons.mp hnd).2
    have hdisj2 : ∀ d ∈ rest.map Prod.fst, d ∉ (acc ++ [p]).map Prod.fst := by
      intro d hd
      rw [List.map_append, List.mem_append]
      rintro (hc | hc)
      · exact hdisj d (by rw [List.map_cons]; exact List.mem_cons_of_mem _ hd) hc
      · rw [List.map_cons, List.map_nil, List.mem_singleton] at hc
        subst hc
        rw [List.map_cons] at hnd
        exact (List.nodup_cons.mp hnd).1 hd
    rw [hstep, ih (acc ++ [p]) hnd2 hdisj2]
    simp

theorem fill_fold_eq (s : Store) (ent : Int → List Record) :
    ∀ (L : List Int) (acc : List (Int × List Record)),
      L.Nodup →
      (∀ d ∈ L, ∃ e, read_entry s d = some e ∧ e.logs = ent d) →
      L.foldl (fun m d => if m.any (fun p => p.1 == d) then m
          else match read_entry s d with
            | some entry => m ++ [(d, entry.logs)]
            | none => m) acc
        = acc ++ (L.filter (fun d => !(acc.any (fun p => p.1 == d)))).map
            (fun d => (d, ent d)) := by
  intro L
  induction L with
  | nil => intro acc _ _; simp
  | cons a rest ih =>
    intro acc hnd hent
    obtain ⟨e, hre, hle⟩ := hent a (List.mem_cons_self a rest)
    rw [List.foldl_cons, List.filter_cons]
    by_cases hin : acc.any (fun p => p.1 == a) = true
    · rw [if_pos hin]
      simp only [hin, Bool.not_true, Bool.false_eq_true, if_false]
      exact ih acc (List.nodup_cons.mp hnd).2
        (fun d hd => hent d (List.mem_cons_of_mem a hd))
    · have hin2 : acc.any (fun p => p.1 == a) = false := Bool.eq_false_iff.mpr hin
      have hstep : (match read_entry s a with
          | some entry => acc ++ [(a, entry.logs)]
          | none => acc) = acc ++ [(a, ent a)] := by
        simp only [hre]
        rw [hle]
      rw [if_neg hin, hstep, hin2]
      rw [if_pos (by simp : (!false) = true)]
      rw [ih (acc ++ [(a, ent a)]) (List.nodup_cons.mp hnd).2
        (fun d hd => hent d (List.mem_cons_of_mem a hd))]
      have hfe : rest.filter
          (fun d => !((acc ++ [(a, ent a)]).any (fun p => p.1 == d)))
          = rest.filter (fun d => !(acc.any (fun p => p.1 == d))) := by
        refine List.filter_congr (fun d hd => ?_)
        rw [List.any_append]
        have hda : (List.any [(a, ent a)] (fun p => p.1 == d)) = false := by
          simp only [List.any_cons, List.any_nil, Bool.or_false]
          have : a ≠ d := fun hc => (List.nodup_cons.mp hnd).1 (hc ▸ hd)
          simp [this]
        rw [hda, Bool.or_false]
      rw [hfe]
      simp

theorem int_range_nil {a b : Int} (h : b < a) : int_range a b = [] := by
  unfold int_range
  have h0 : (b - a + 1).toNat = 0 := by omega
  rw [h0]
  rfl

theorem group_gaps_go_range (gs : Int) :
    ∀ (n : Nat) (ge b : Int), ge ≤ b → (b - ge).toNat = n →
      group_gaps_go gs ge (int_range (ge + 1) b) = [(gs, b)] := by
  intro n
  induction n with
  | zero =>
    intro ge b h1 h2
    have hgeb : ge = b := by omega
    subst hgeb
    rw [int_range_nil (by omega)]
    rfl
  | succ n ih =>
    intro ge b h1 h2
    have hlt : ge + 1 ≤ b := by omega
    rw [int_range_cons hlt]
    simp only [group_gaps_go, if_pos rfl]
    exact ih (ge + 1) b hlt (by omega)

theorem group_gaps_range {a b : Int} (h : a ≤ b) :
    group_gaps (int_range a b) = [(a, b)] := by
  rw [int_range_cons h]
  simp only [group_gaps]
  exact group_gaps_go_range a (b - a).toNat a b h rfl

theorem plan_hybrid_full (start eff execution_date : Int) (h1 : start ≤ eff)
    (h2 : eff ≤ execution_date) :
    plan_hybrid_fetch [] start eff execution_date
      = [(start, eff, GapStrategy.bulk)] := by
  unfold plan_hybrid_fetch
  have hfilter1 : (int_range start eff).filter (fun d => decide (d ≤ execution_date))
      = int_range start eff := by
    rw [int_range_filter_le]
    congr 1
    omega
  have hfilter2 : (int_range start eff).filter (needs_remote [] execution_date)
      = int_range start eff := by
    rw [List.filter_eq_self]
    intro d _
    unfold needs_remote
    split
    · rfl
    · rfl
  rw [hfilter1, hfilter2]
  have hne : int_range start eff ≠ [] := by
    rw [int_range_cons h1]
    exact List.cons_ne_nil _ _
  rw [if_neg hne, group_gaps_range h1]
  simp only [List.map_cons, List.map_nil]
  have hcond : ((eff - start + 1 ≥ 3)
      ∨ (eff - start + 1 > 0 ∧ 5 * (eff - start + 1) ≥ 2 * (eff - start + 1))) :=
    Or.inr (by omega)
  rw [if_pos hcond]

theorem any_key_iff (m : List (Int × List Record)) (d : Int) :
    (m.any (fun p => p.1 == d) = true) ↔ d ∈ m.map Prod.fst := by
  rw [List.any_eq_true]
  constructor
  · rintro ⟨p, hp, hb⟩
    exact List.mem_map.mpr ⟨p, hp, by simpa using hb⟩
  · intro h
    obtain ⟨p, hp, he⟩ := List.mem_map.mp h
    exact ⟨p, hp, by simp [he]⟩

theorem perm_filter_bucket {S W : List Record} {q p : Record → Bool}
    {f : Record → Int} {d : Int}
    (hW : W.Perm (S.filter q))
    (hpt : ∀ r ∈ S, q r = true → p r = (f r == d))
    (hpf : ∀ r ∈ S, q r = false → (f r == d) = false) :
    (W.filter p).Perm (S.filter (fun r => f r == d)) := by
  refine (hW.filter p).trans ?_
  rw [List.filter_filter]
  have hfe : S.filter (fun a => p a && q a) = S.filter (fun r => f r == d) := by
    refine List.filter_congr (fun r hr => ?_)
    cases hq : q r with
    | true =>
      rw [Bool.and_true]
      exact hpt r hr hq
    | false =>
      rw [Bool.and_false]
      exact (hpf r hr hq).symm
  rw [hfe]

set_option maxHeartbeats 1600000 in
theorem hybrid_out_perm (seeded : List Record) (descending : Bool)
    (execution_date start eend : Int) (f : Record → Int)
    (hs1 : start ≤ eend) (hs2 : start ≤ execution_date)
    (hstr : ∀ r ∈ seeded,
      (str_le (day_key start) (transport_key r)
          && str_le (transport_key r) (day_key (min eend execution_date)))
        = decide (start ≤ f r ∧ f r ≤ min eend execution_date))
    (hA : take10 (day_key start ++ " 00:00:00") = day_key start)
    (hB : take10 (day_key (min eend execution_date) ++ " 23:59:59")
        = day_key (min eend execution_date))
    (hdate : ∀ r ∈ seeded, ∃ s, bulk_date_str r = some s
        ∧ hybrid_date_str r = some s ∧ parse10 (take10 s) = some (f r)) :
    ((hybrid_stream_range (mem_remote seeded descending) ⟨[], [], []⟩
        execution_date start eend descending none).1).Perm
      (seeded.filter
        (fun r => decide (start ≤ f r ∧ f r ≤ min eend execution_date))) := by
  have heff1 : start ≤ min eend execution_date := by omega
  have heff2 : min eend execution_date ≤ execution_date := min_le_right _ _
  have hmin : min (min eend execution_date) execution_date = min eend execution_date := by
    omega
  simp only [hybrid_stream_range]
  rw [if_neg (by omega : ¬ start > execution_date),
    plan_hybrid_full start (min eend execution_date) execution_date heff1 heff2,
    if_neg (List.cons_ne_nil _ _)]
  set E := min eend execution_date with hE
  -- the single bulk gap runs the bulk streamer over the whole range
  have hq2 : (mem_remote seeded descending).rangeQuery start (min E execution_date)
      = some (transport_range_query seeded descending
          (day_key start ++ " 00:00:00") (day_key E ++ " 23:59:59")) := by
    rw [hmin]
    rfl
  set RB := transport_range_query seeded descending
    (day_key start ++ " 00:00:00") (day_key E ++ " 23:59:59") with hRB
  have hrunB := bulk_stream_range_run (mem_remote seeded descending) ⟨[], [], []⟩
    execution_date start E descending RB hs2 hq2
  cases hbulk : bulk_stream_range (mem_remote seeded descending) ⟨[], [], []⟩
      execution_date start E descending none with
  | none =>
    rw [hbulk] at hrunB
    exact absurd hrunB (by simp)
  | some pr =>
    obtain ⟨outB, stB⟩ := pr
    rw [hbulk] at hrunB
    simp only [Option.map_some'] at hrunB
    have hstB : stB = bulk_final ⟨[], [], []⟩ execution_date start E RB :=
      Option.some.inj hrunB
    have hgap_nodup : ((hybrid_partition outB start E).map Prod.fst).Nodup := by
      rw [hybrid_partition_eq]
      exact hyb_fold_keys_nodup start E outB [] (by simp)
    have hexec : execute_gap (mem_remote seeded descending) ⟨[], [], []⟩
        execution_date descending (start, E, GapStrategy.bulk)
        = (hybrid_partition outB start E, stB) := by
      unfold execute_gap
      simp only [hbulk]
    have hEX : (List.foldl
        (fun (acc : List (Int × List Record) × SysState) gap =>
          (List.foldl (fun m p => assoc_set m p.1 p.2) acc.1
              (execute_gap (mem_remote seeded descending) acc.2 execution_date
                descending gap).1,
            (execute_gap (mem_remote seeded descending) acc.2 execution_date
              descending gap).2))
        ([], (⟨[], [], []⟩ : SysState)) [(start, E, GapStrategy.bulk)])
        = (hybrid_partition outB start E, stB) := by
      rw [List.foldl_cons, List.foldl_nil]
      simp only [hexec]
      rw [assoc_set_fold (hybrid_partition outB start E) [] hgap_nodup
        (fun d _ => by simp)]
      rw [List.nil_append]
    rw [hEX]
    dsimp only
    have hent : ∀ d ∈ int_range start E, ∃ e, read_entry stB.store d = some e
        ∧ e.logs = RB.filter
            (fun r => bulk_assign start (min E execution_date) r == some d) := by
      intro d hd
      rw [mem_int_range] at hd
      rw [hstB]
      exact bulk_final_read_range ⟨[], [], []⟩ execution_date start E RB d hd.1
        (by omega)
    have hFILL := fill_fold_eq stB.store
      (fun d => RB.filter (fun r => bulk_assign start (min E execution_date) r == some d))
      (int_range start E) (hybrid_partition outB start E) (int_range_nodup _ _) hent
    rw [hFILL]
    simp only [take_cap]
    set MG := hybrid_partition outB start E with hMG
    set DD := (int_range start E).filter (fun d => !(MG.any (fun p => p.1 == d)))
      with hDD
    have hMGrange : ∀ d ∈ MG.map Prod.fst, start ≤ d ∧ d ≤ E := by
      intro d hd
      rw [hMG, hybrid_partition_eq] at hd
      rcases hyb_fold_keys_sub start E outB [] d hd with h1 | h1
      · simp at h1
      · exact h1
    have hkeyseq : ((MG ++ DD.map (fun d => (d, RB.filter
        (fun r => bulk_assign start (min E execution_date) r == some d)))).map Prod.fst)
        = MG.map Prod.fst ++ DD := by
      have hcomp : (Prod.fst ∘ fun (d : Int) => (d, RB.filter
          (fun r => bulk_assign start (min E execution_date) r == some d))) = id :=
        funext (fun d => rfl)
      rw [List.map_append, List.map_map, hcomp, List.map_id]
    rw [hkeyseq]
    have hM2nodup : (MG.map Prod.fst ++ DD).Nodup := by
      rw [List.nodup_append]
      refine ⟨hgap_nodup, (int_range_nodup start E).filter _, ?_⟩
      intro d hdmg hddd
      have h2 := (List.mem_filter.mp hddd).2
      have h3 := (any_key_iff MG d).mpr hdmg
      rw [h3] at h2
      exact absurd h2 (by decide)
    have hsorted_nodup : (sort_int descending (MG.map Prod.fst ++ DD)).Nodup :=
      ((sort_int_perm descending _).nodup_iff).mpr hM2nodup
    have hstr2 : ∀ r ∈ seeded,
        (str_le (day_key start) (transport_key r)
            && str_le (transport_key r) (day_key (min E execution_date)))
          = decide (start ≤ f r ∧ f r ≤ min E execution_date) := by
      simp only [hmin]
      exact hstr
    have hB2 : take10 (day_key (min E execution_date) ++ " 23:59:59")
        = day_key (min E execution_date) := by
      simp only [hmin]
      exact hB
    have hdate2 : ∀ r ∈ seeded, ∃ s, bulk_date_str r = some s
        ∧ parse10 (take10 s) = some (f r) :=
      fun r hr => (hdate r hr).elim (fun s hs => ⟨s, hs.1, hs.2.2⟩)
    have houtB := bulk_out_perm seeded descending execution_date start E f hs2
      hstr2 hA hB2 hdate2 outB stB hbulk
    rw [hmin] at houtB
    have hRBperm : RB.Perm (seeded.filter
        (fun r => decide (start ≤ f r ∧ f r ≤ E))) := by
      rw [hRB]
      unfold transport_range_query
      refine (sort_by_key_perm descending _).trans ?_
      have hfe : seeded.filter (fun r =>
          str_le (take10 (day_key start ++ " 00:00:00")) (transport_key r)
            && str_le (transport_key r) (take10 (day_key E ++ " 23:59:59")))
          = seeded.filter (fun r => decide (start ≤ f r ∧ f r ≤ E)) := by
        refine List.filter_congr (fun r hr => ?_)
        rw [hA, hB]
        exact hstr r hr
      rw [hfe]
    have hhybassign : ∀ r ∈ seeded, hyb_assign start E r
        = if start ≤ f r ∧ f r ≤ E then some (f r) else none := by
      intro r hr
      obtain ⟨s, hb, hh, hp⟩ := hdate r hr
      unfold hyb_assign
      simp only [hh, hp]
    have hbulkassign : ∀ r ∈ seeded, bulk_assign start (min E execution_date) r
        = if start ≤ f r ∧ f r ≤ E then some (f r) else none := by
      intro r hr
      obtain ⟨s, hb, hh, hp⟩ := hdate r hr
      unfold bulk_assign
      simp only [hb, hp, hmin]
      by_cases hc : start ≤ f r ∧ f r ≤ E
      · rw [if_neg (by omega : ¬ (f r < start ∨ f r > E)), if_pos hc]
      · rw [if_pos (by omega : f r < start ∨ f r > E), if_neg hc]
    have hbuckets : ∀ d ∈ sort_int descending (MG.map Prod.fst ++ DD),
        (lookup_day (MG ++ DD.map (fun d => (d, RB.filter
            (fun r => bulk_assign start (min E execution_date) r == some d)))) d).Perm
          (seeded.filter (fun r => f r == d)) := by
      intro d hd
      have hdm : d ∈ MG.map Prod.fst ++ DD := (sort_int_perm descending _).mem_iff.mp hd
      have hdrange : start ≤ d ∧ d ≤ E := by
        rcases List.mem_append.mp hdm with h1 | h1
        · exact hMGrange d h1
        · have h2 := (List.mem_filter.mp h1).1
          rw [mem_int_range] at h2
          exact h2
      rw [lookup_append]
      by_cases hin : MG.any (fun p => p.1 == d) = true
      · rw [if_pos hin]
        have hlkg : lookup_day MG d
            = outB.filter (fun r => hyb_assign start E r == some d) := by
          rw [hMG, hybrid_partition_eq, hyb_fold_lookup]
          rfl
        rw [hlkg]
        refine perm_filter_bucket houtB ?_ ?_
        · intro r hr hq
          rw [hhybassign r hr, if_pos (of_decide_eq_true hq)]
          rfl
        · intro r hr hq
          have hnr : ¬ (start ≤ f r ∧ f r ≤ E) := of_decide_eq_false hq
          have hne : f r ≠ d := fun hc => hnr (hc ▸ hdrange)
          simp [hne]
      · rw [if_neg hin]
        have hdD : d ∈ DD := by
          rcases List.mem_append.mp hdm with h1 | h1
          · exact absurd ((any_key_iff MG d).mpr h1) hin
          · exact h1
        rw [lookup_map_pair, if_pos hdD]
        refine perm_filter_bucket hRBperm ?_ ?_
        · intro r hr hq
          rw [hbulkassign r hr, if_pos (of_decide_eq_true hq)]
          rfl
        · intro r hr hq
          have hnr : ¬ (start ≤ f r ∧ f r ≤ E) := of_decide_eq_false hq
          have hne : f r ≠ d := fun hc => hnr (hc ▸ hdrange)
          simp [hne]
    refine (buckets_flatten_perm seeded f (sort_int descending (MG.map Prod.fst ++ DD))
      (fun d => lookup_day (MG ++ DD.map (fun d => (d, RB.filter
        (fun r => bulk_assign start (min E execution_date) r == some d)))) d)
      hsorted_nodup hbuckets).trans ?_
    have hfinal : seeded.filter
        (fun r => decide (f r ∈ sort_int descending (MG.map Prod.fst ++ DD)))
        = seeded.filter (fun r => decide (start ≤ f r ∧ f r ≤ E)) := by
      refine List.filter_congr (fun r hr => ?_)
      refine decide_eq_decide.mpr ?_
      rw [(sort_int_perm descending _).mem_iff, List.mem_append]
      constructor
      · rintro (h1 | h1)
        · exact hMGrange _ h1
        · have h2 := (List.mem_filter.mp h1).1
          rw [mem_int_range] at h2
          exact h2
      · intro h1
        by_cases hc : MG.any (fun p => p.1 == f r) = true
        · exact Or.inl ((any_key_iff MG (f r)).mp hc)
        · right
          rw [hDD, List.mem_filter, mem_int_range]
          refine ⟨h1, ?_⟩
          have h2 : MG.any (fun p => p.1 == f r) = false := Bool.eq_false_iff.mpr hc
          rw [h2]
          rfl
    rw [hfinal]

/-- Claim C9 (confirmed): against the same seeded in-memory remote and
for the same requested range and direction, the daily, bulk and hybrid
streaming strategies emit the same multiset of records (each is a
permutation of the bulk output).  The hypotheses say the range is
well-formed and the seeded records carry coherent embedded dates: the
transport key of each record equals the isoformat of its day `f r`
exactly on range days, the transport's string-interval filter agrees
with day-number bounds, the range bounds survive the transport's
10-character truncation, and the three extraction chains parse each
record's date to its day. -/
theorem C9_strategy_equivalence (seeded : List Record) (descending : Bool)
    (execution_date start eend : Int) (f : Record → Int)
    (hs1 : start ≤ eend) (hs2 : start ≤ execution_date)
    (hkey : ∀ r ∈ seeded, ∀ q ∈ int_range start (min eend execution_date),
      ((transport_key r == day_key q) = (f r == q)))
    (hstr : ∀ r ∈ seeded,
      (str_le (day_key start) (transport_key r)
          && str_le (transport_key r) (day_key (min eend execution_date)))
        = decide (start ≤ f r ∧ f r ≤ min eend execution_date))
    (hA : take10 (day_key start ++ " 00:00:00") = day_key start)
    (hB : take10 (day_key (min eend execution_date) ++ " 23:59:59")
        = day_key (min eend execution_date))
    (hdate : ∀ r ∈ seeded, ∃ s, bulk_date_str r = some s
        ∧ hybrid_date_str r = some s ∧ parse10 (take10 s) = some (f r)) :
    ∃ outB stB,
      bulk_stream_range (mem_remote seeded descending) ⟨[], [], []⟩
          execution_date start eend descending none = some (outB, stB)
      ∧ ((daily_stream_range (mem_remote seeded descending) ⟨[], [], []⟩
            execution_date start eend descending none false).1).Perm outB
      ∧ ((hybrid_stream_range (mem_remote seeded descending) ⟨[], [], []⟩
            execution_date start eend descending none).1).Perm outB := by
  have hq : (mem_remote seeded descending).rangeQuery start (min eend execution_date)
      = some (transport_range_query seeded descending
          (day_key start ++ " 00:00:00")
          (day_key (min eend execution_date) ++ " 23:59:59")) := rfl
  have hrunB := bulk_stream_range_run (mem_remote seeded descending) ⟨[], [], []⟩
    execution_date start eend descending _ hs2 hq
  cases hbulk : bulk_stream_range (mem_remote seeded descending) ⟨[], [], []⟩
      execution_date start eend descending none with
  | none =>
    rw [hbulk] at hrunB
    exact absurd hrunB (by simp)
  | some pr =>
    obtain ⟨outB, stB⟩ := pr
    have hBk := bulk_out_perm seeded descending execution_date start eend f hs2 hstr
      hA hB (fun r hr => (hdate r hr).elim (fun s hs => ⟨s, hs.1, hs.2.2⟩)) outB stB
      hbulk
    refine ⟨outB, stB, rfl, ?_, ?_⟩
    · exact (daily_out_perm seeded descending execution_date start eend f hs1 hs2
        hkey).trans hBk.symm
    · exact (hybrid_out_perm seeded descending execution_date start eend f hs1 hs2
        hstr hA hB hdate).trans hBk.symm

/-- Witness for C9: three seeded records, range `1970-01-01` ..
`1970-01-03` at execution date day 2; all three strategies agree. -/
theorem C9_strategy_equivalence_witness :
    ∃ outB stB,
      bulk_stream_range (mem_remote w9_seeded false) ⟨[], [], []⟩ 2 0 2 false none
        = some (outB, stB)
      ∧ ((daily_stream_range (mem_remote w9_seeded false) ⟨[], [], []⟩ 2 0 2 false
            none false).1).Perm outB
      ∧ ((hybrid_stream_range (mem_remote w9_seeded false) ⟨[], [], []⟩ 2 0 2 false
            none).1).Perm outB :=
  C9_strategy_equivalence w9_seeded false 2 0 2 w9_day (by decide) (by decide)
    (by decide) (by decide) (by decide) (by decide)
    (by
      intro r hr
      fin_cases hr
      · exact ⟨"1970-01-02T01:00:00Z", by decide, by decide, by decide⟩
      · exact ⟨"1970-01-01T05:00:00Z", by decide, by decide, by decide⟩
      · exact ⟨"1970-01-05T00:00:00Z", by decide, by decide, by decide⟩)

end Limitless
